import Mathlib

set_option maxHeartbeats 1600000
set_option maxRecDepth 4000

/-!
Verification of the WSG Tetris core (grid model, placement evaluator,
shape/label scheduler) against its natural-language specification.

The TypeScript sources are embedded shallowly: occupancy matrices are
lists of 0/1 rows, the board grid is a list of rows of filled flags,
JavaScript numbers used as grid coordinates become Int, and every loop
becomes a fold or a bounded recursion over the same index ranges the
source iterates.  Math.random() draws are modelled by an explicit
stream of naturals, each draw taken modulo the length of the array the
source indexes into.
-/

namespace Wsg

/-- Occupancy matrix of a shape or piece: rows of 0/1 entries, exactly the
number[][] shape of shape_data.json / Tetromino.matrix. -/
abbrev OccMat := List (List Nat)

/-- Board grid: rows of GridTile.filled flags (GameBoard.grid). -/
abbrev Grid := List (List Bool)

/-- ShapeData from shape_data.json (types/index.ts): name, label anchors
(text_position), occupancy matrix, and the bundled fallback labels that
getLabelsForShape reads as shape.label. Rendering-only path fields are
omitted (no effect on the game model). -/
structure ShapeData where
  shape_name : String
  text_position : List (Int × Int)
  matrix : OccMat
  label : List String
deriving Repr, DecidableEq

/-- A live piece (interface Tetromino): shape reference, grid position of
the matrix top-left, rotation in degrees, the current rotated matrix and
the assigned labels. -/
structure Tetromino where
  shape : ShapeData
  x : Int
  y : Int
  rotation : Nat
  matrix : OccMat
  labels : List String
deriving Repr, DecidableEq

/-- matrix[row][col] with the source's out-of-range reads mapped to 0. -/
def entry (m : OccMat) (row col : Nat) : Nat := (m.getD row []).getD col 0

/-- matrix[row].length. -/
def rowLen (m : OccMat) (row : Nat) : Nat := (m.getD row []).length

/-- grid[y][x].filled for in-range indices, false outside. -/
def getCell (g : Grid) (y x : Nat) : Bool := (g.getD y []).getD x false

/-- GameBoard.canPlace: every filled cell of the piece matrix must map to a
column in [0, W), a row below H is forbidden, rows above the top (negative
gridY) skip the collision test, and an in-range cell must not collide with
a filled grid cell. -/
def canPlace (W H : Nat) (g : Grid) (t : Tetromino) : Bool :=
  (List.range t.matrix.length).all fun row =>
    (List.range (rowLen t.matrix row)).all fun col =>
      if entry t.matrix row col = 1 then
        let gridX : Int := t.x + col
        let gridY : Int := t.y + row
        if gridX < 0 ∨ (W : Int) ≤ gridX ∨ (H : Int) ≤ gridY then false
        else if 0 ≤ gridY ∧ getCell g gridY.toNat gridX.toNat then false
        else true
      else true

/-- The spec's reading of can_place for one occupied cell: the cell is in
horizontal bounds, above the bottom, and if it is at a row that exists on
the grid (row ≥ 0) that grid cell is empty; rows above the grid top are
ignored. -/
def specCellFree (W H : Nat) (g : Grid) (t : Tetromino) (row col : Nat) : Prop :=
  0 ≤ t.x + (col : Int) ∧ t.x + (col : Int) < (W : Int) ∧ t.y + (row : Int) < (H : Int) ∧
    (0 ≤ t.y + (row : Int) → getCell g (t.y + (row : Int)).toNat (t.x + (col : Int)).toNat = false)

/-- canPlace is true exactly when every occupied cell of the piece matrix
satisfies specCellFree. -/
theorem canPlace_iff_specCellFree (W H : Nat) (g : Grid) (t : Tetromino) :
    canPlace W H g t = true ↔
      ∀ row col, row < t.matrix.length → col < rowLen t.matrix row →
        entry t.matrix row col = 1 → specCellFree W H g t row col := by
  unfold canPlace specCellFree
  simp only [List.all_eq_true, List.mem_range]
  constructor
  · intro h row col hrow hcol he
    have h2 := h row hrow col hcol
    simp only [he, if_true] at h2
    by_cases hb : t.x + (col : Int) < 0 ∨ (W : Int) ≤ t.x + (col : Int) ∨ (H : Int) ≤ t.y + (row : Int)
    · simp [hb] at h2
    · push_neg at hb
      refine ⟨hb.1, hb.2.1, hb.2.2, ?_⟩
      intro hy
      simp only [if_neg (by push_neg; exact ⟨hb.1, hb.2.1, hb.2.2⟩ :
        ¬(t.x + (col : Int) < 0 ∨ (W : Int) ≤ t.x + (col : Int) ∨ (H : Int) ≤ t.y + (row : Int)))] at h2
      by_cases hc : getCell g (t.y + (row : Int)).toNat (t.x + (col : Int)).toNat = true
      · exfalso
        have : (0 ≤ t.y + (row : Int) ∧ getCell g (t.y + (row : Int)).toNat (t.x + (col : Int)).toNat) := ⟨hy, hc⟩
        simp [this] at h2
      · simpa using hc
  · intro h row hrow col hcol
    by_cases he : entry t.matrix row col = 1
    · have hs := h row col hrow hcol he
      simp only [he, if_true]
      have hb : ¬(t.x + (col : Int) < 0 ∨ (W : Int) ≤ t.x + (col : Int) ∨ (H : Int) ≤ t.y + (row : Int)) := by
        push_neg
        exact ⟨hs.1, hs.2.1, hs.2.2.1⟩
      rw [if_neg hb]
      by_cases hy : 0 ≤ t.y + (row : Int)
      · have := hs.2.2.2 hy
        simp [this]
      · simp [hy]
    · simp [he]

/-- Claim C5: canPlace returns false whenever any occupied cell of the
piece maps to a column < 0 or ≥ W or a row ≥ H, returns false whenever an
occupied cell at row ≥ 0 collides with a filled grid cell, ignores
collisions for cells at rows above the grid top, and otherwise returns
true: it is true exactly when every occupied cell satisfies specCellFree. -/
theorem C5_canPlace_bounds_and_collision (W H : Nat) (g : Grid) (t : Tetromino) :
    canPlace W H g t = true ↔
      ∀ row col, row < t.matrix.length → col < rowLen t.matrix row →
        entry t.matrix row col = 1 → specCellFree W H g t row col :=
  canPlace_iff_specCellFree W H g t

/-- grid[y][x] = {filled: true}: the single-cell write of the lock loop
(only the filled flag matters for the grid model). -/
def setCell (g : Grid) (y x : Nat) : Grid := g.set y ((g.getD y []).set x true)

/-- The grid is an H-row, W-column matrix (GameBoard.initializeGrid). -/
def wellFormed (W H : Nat) (g : Grid) : Prop :=
  g.length = H ∧ ∀ i, i < H → (g.getD i []).length = W

/-- The cell-marking loop shared verbatim by GameBoard.lockTetromino
("Mark grid cells as filled") and TetrominoRenderer.simulatePlacement
("Add tetromino placement"): each filled matrix cell whose grid
coordinates are inside the W x H board is set to filled. -/
def writeStep (W H : Nat) (t : Tetromino) (row : Nat) (acc2 : Grid) (col : Nat) : Grid :=
  if entry t.matrix row col = 1 then
    if 0 ≤ t.y + (row : Int) ∧ t.y + (row : Int) < (H : Int) ∧
        0 ≤ t.x + (col : Int) ∧ t.x + (col : Int) < (W : Int) then
      setCell acc2 (t.y + (row : Int)).toNat (t.x + (col : Int)).toNat
    else acc2
  else acc2

def writeTetromino (W H : Nat) (t : Tetromino) (g : Grid) : Grid :=
  (List.range t.matrix.length).foldl (fun acc row =>
    (List.range (rowLen t.matrix row)).foldl (writeStep W H t row) acc) g

/-- Grid-state effect of GameBoard.lockTetromino. The Phaser image/text
creation and tween animation in the source do not touch the grid array,
so the grid model of the lock is exactly the cell-marking loop. -/
def lockTetromino (W H : Nat) (t : Tetromino) (g : Grid) : Grid :=
  writeTetromino W H t g

/-- The piece has an occupied matrix cell whose grid coordinates are
exactly (row y, column x). -/
def covers (t : Tetromino) (y x : Nat) : Bool :=
  (List.range t.matrix.length).any fun row =>
    (List.range (rowLen t.matrix row)).any fun col =>
      decide (entry t.matrix row col = 1) &&
        decide (t.y + (row : Int) = (y : Int)) && decide (t.x + (col : Int) = (x : Int))

theorem length_setCell (g : Grid) (y x : Nat) : (setCell g y x).length = g.length := by
  simp [setCell, List.length_set]

theorem wellFormed_setCell {W H : Nat} {g : Grid} (hg : wellFormed W H g)
    (y x : Nat) : wellFormed W H (setCell g y x) := by
  obtain ⟨hlen, hrow⟩ := hg
  refine ⟨by simp [setCell, List.length_set, hlen], ?_⟩
  intro i hi
  simp only [setCell, List.getD_eq_getElem?_getD, List.getElem?_set]
  by_cases hyi : y = i
  · subst hyi
    have hyl : y < g.length := hlen ▸ hi
    have := hrow y hi
    rw [List.getD_eq_getElem?_getD] at this
    simpa [hyl, List.length_set] using this
  · have := hrow i hi
    rw [List.getD_eq_getElem?_getD] at this
    simpa [hyi] using this

theorem getCell_setCell {W H : Nat} {g : Grid} (hg : wellFormed W H g)
    {y0 x0 : Nat} (hy0 : y0 < H) (hx0 : x0 < W) (y x : Nat) :
    getCell (setCell g y0 x0) y x =
      if y0 = y ∧ x0 = x then true else getCell g y x := by
  obtain ⟨hlen, hrow⟩ := hg
  have hy0l : y0 < g.length := hlen ▸ hy0
  have hx0l : x0 < (g[y0]?.getD []).length := by
    have := hrow y0 hy0
    rw [List.getD_eq_getElem?_getD] at this
    rw [this]; exact hx0
  simp only [getCell, setCell, List.getD_eq_getElem?_getD, List.getElem?_set]
  by_cases hyy : y0 = y
  · subst hyy
    simp only [if_pos rfl, hy0l, if_true]
    by_cases hxx : x0 = x
    · subst hxx
      simp [List.getD_eq_getElem?_getD, List.getElem?_set, hx0l]
    · simp [List.getD_eq_getElem?_getD, List.getElem?_set, hxx]
  · simp [hyy]

/-- One occupied matrix cell of the piece sits at grid row y, column x. -/
def hitCell (t : Tetromino) (y x : Nat) (row col : Nat) : Bool :=
  decide (entry t.matrix row col = 1) &&
    decide (t.y + (row : Int) = (y : Int)) && decide (t.x + (col : Int) = (x : Int))

theorem wellFormed_writeStep {W H : Nat} (t : Tetromino) (row : Nat) {acc : Grid}
    (h : wellFormed W H acc) (col : Nat) : wellFormed W H (writeStep W H t row acc col) := by
  unfold writeStep
  split
  · split
    · exact wellFormed_setCell h _ _
    · exact h
  · exact h

theorem getCell_writeStep {W H : Nat} (t : Tetromino) (row : Nat) {acc : Grid}
    (h : wellFormed W H acc) {y x : Nat} (hy : y < H) (hx : x < W) (col : Nat) :
    getCell (writeStep W H t row acc col) y x =
      (hitCell t y x row col || getCell acc y x) := by
  unfold writeStep hitCell
  by_cases he : entry t.matrix row col = 1
  · simp only [he, if_true, decide_True, Bool.true_and]
    by_cases hb : 0 ≤ t.y + (row : Int) ∧ t.y + (row : Int) < (H : Int) ∧
        0 ≤ t.x + (col : Int) ∧ t.x + (col : Int) < (W : Int)
    · rw [if_pos hb]
      have hyn : (t.y + (row : Int)).toNat < H := by omega
      have hxn : (t.x + (col : Int)).toNat < W := by omega
      rw [getCell_setCell h hyn hxn]
      by_cases hhit : t.y + (row : Int) = (y : Int) ∧ t.x + (col : Int) = (x : Int)
      · have hcond : (t.y + (row : Int)).toNat = y ∧ (t.x + (col : Int)).toNat = x := by omega
        simp [hcond, hhit.1, hhit.2]
      · have hcond : ¬((t.y + (row : Int)).toNat = y ∧ (t.x + (col : Int)).toNat = x) := by omega
        rw [if_neg hcond]
        rcases not_and_or.mp hhit with hne | hne <;> simp [hne]
    · rw [if_neg hb]
      have : ¬(t.y + (row : Int) = (y : Int) ∧ t.x + (col : Int) = (x : Int)) := by omega
      rcases not_and_or.mp this with hne | hne <;> simp [hne]
  · simp [he]

theorem foldl_writeStep {W H : Nat} {t : Tetromino} {row : Nat} :
    ∀ (cols : List Nat) (acc : Grid), wellFormed W H acc →
      wellFormed W H (cols.foldl (writeStep W H t row) acc) ∧
      ∀ y x, y < H → x < W →
        getCell (cols.foldl (writeStep W H t row) acc) y x =
          (cols.any (hitCell t y x row) || getCell acc y x) := by
  intro cols
  induction cols with
  | nil => intro acc h; exact ⟨h, fun y x _ _ => by simp⟩
  | cons c cs ih =>
    intro acc h
    have hstep := wellFormed_writeStep t row h c
    obtain ⟨hwf, hcell⟩ := ih (writeStep W H t row acc c) hstep
    refine ⟨hwf, ?_⟩
    intro y x hy hx
    rw [List.foldl_cons] at *
    rw [hcell y x hy hx, getCell_writeStep t row h hy hx c, List.any_cons]
    cases hitCell t y x row c <;> cases cs.any (hitCell t y x row) <;> simp

theorem foldl_writeRows {W H : Nat} {t : Tetromino} :
    ∀ (rows : List Nat) (acc : Grid), wellFormed W H acc →
      wellFormed W H (rows.foldl
        (fun a row => (List.range (rowLen t.matrix row)).foldl (writeStep W H t row) a) acc) ∧
      ∀ y x, y < H → x < W →
        getCell (rows.foldl
          (fun a row => (List.range (rowLen t.matrix row)).foldl (writeStep W H t row) a) acc) y x =
          (rows.any (fun row => (List.range (rowLen t.matrix row)).any (hitCell t y x row)) ||
            getCell acc y x) := by
  intro rows
  induction rows with
  | nil => intro acc h; exact ⟨h, fun y x _ _ => by simp⟩
  | cons r rs ih =>
    intro acc h
    obtain ⟨hwf1, hcell1⟩ := foldl_writeStep (List.range (rowLen t.matrix r)) acc h
    obtain ⟨hwf, hcell⟩ := ih _ hwf1
    refine ⟨hwf, ?_⟩
    intro y x hy hx
    rw [List.foldl_cons] at *
    rw [hcell y x hy hx, hcell1 y x hy hx, List.any_cons]
    cases (List.range (rowLen t.matrix r)).any (hitCell t y x r) <;>
      cases rs.any (fun row => (List.range (rowLen t.matrix row)).any (hitCell t y x row)) <;> simp

/-- Claim C10: locking mutates only the in-bounds grid cells covered by an
occupied cell of the piece matrix, setting exactly those to filled; every
other cell keeps its previous state, no filled cell becomes unfilled, and
the grid stays a well-formed W x H matrix (out-of-bounds piece cells are
never written). -/
theorem C10_lockTetromino_frame (W H : Nat) (t : Tetromino) (g : Grid)
    (hg : wellFormed W H g) :
    wellFormed W H (lockTetromino W H t g) ∧
      ∀ y x, y < H → x < W →
        getCell (lockTetromino W H t g) y x = (getCell g y x || covers t y x) := by
  obtain ⟨hwf, hcell⟩ := foldl_writeRows (List.range t.matrix.length) g hg
  refine ⟨hwf, ?_⟩
  intro y x hy hx
  rw [lockTetromino, writeTetromino, hcell y x hy hx]
  have hcov : covers t y x =
      (List.range t.matrix.length).any
        (fun row => (List.range (rowLen t.matrix row)).any (hitCell t y x row)) := rfl
  rw [hcov, Bool.or_comm]

/-- The square shape (2 anchors never: one text position), as in
shape_data.json, for use in concrete scenarios. -/
def oShape : ShapeData := ⟨"o", [(0, 0)], [[1, 1], [1, 1]], []⟩

/-- A square piece resting at the top-left corner. -/
def oPiece00 : Tetromino := ⟨oShape, 0, 0, 0, [[1, 1], [1, 1]], ["A"]⟩

/-- An empty 2 x 2 grid. -/
def emptyGrid22 : Grid := [[false, false], [false, false]]

/-- Witness for C10 at a concrete lock: the 2 x 2 square piece locked at
the origin of an empty 2-row, 2-column grid. -/
theorem C10_lockTetromino_frame_witness :
    wellFormed 2 2 emptyGrid22 ∧
      ((0 : Nat) < 2 ∧ (1 : Nat) < 2 ∧
        getCell (lockTetromino 2 2 oPiece00 emptyGrid22) 0 1 =
          (getCell emptyGrid22 0 1 || covers oPiece00 0 1)) := by
  have hwf : wellFormed 2 2 emptyGrid22 := ⟨by decide, by decide⟩
  exact ⟨hwf, by decide, by decide,
    (C10_lockTetromino_frame 2 2 oPiece00 emptyGrid22 hwf).2 0 1 (by decide) (by decide)⟩

/-- Piece moved to a given grid position (the source's spread
{...tetromino, x, y}). -/
def setPos (t : Tetromino) (x y : Int) : Tetromino := { t with x := x, y := y }

/-- GameBoard.initializeGrid: an H x W grid of empty tiles. -/
def initializeGrid (W H : Nat) : Grid :=
  (List.range H).map fun _ => (List.range W).map fun _ => false

/-- The default (centered) spawn column of findValidSpawnInTopRow:
Math.floor((gridWidth - matrixWidth) / 2). -/
def spawnDefaultX (W : Nat) (t : Tetromino) : Int :=
  Int.fdiv ((W : Int) - rowLen t.matrix 0) 2

/-- The columns the left scan of findValidSpawnInTopRow visits, in order:
defaultX - 1 down to 0. -/
def spawnLeft (W : Nat) (t : Tetromino) : List Int :=
  (List.range (spawnDefaultX W t).toNat).map fun (i : Nat) => spawnDefaultX W t - 1 - (i : Int)

/-- The columns the right scan of findValidSpawnInTopRow visits, in order:
defaultX + 1 up to gridWidth - matrixWidth. -/
def spawnRight (W : Nat) (t : Tetromino) : List Int :=
  (List.range ((W : Int) - rowLen t.matrix 0 - spawnDefaultX W t).toNat).map
    fun (i : Nat) => spawnDefaultX W t + 1 + (i : Int)

/-- The order in which TetrisScene.findValidSpawnInTopRow tries columns:
the centered default first, then columns leftwards down to 0, then columns
rightwards up to gridWidth minus the matrix width. -/
def spawnCandidates (W : Nat) (t : Tetromino) : List Int :=
  spawnDefaultX W t :: (spawnLeft W t ++ spawnRight W t)

/-- TetrisScene.findValidSpawnInTopRow: try the centered default column in
row 0, then scan left to column 0, then scan right while the matrix still
fits, returning the first position canPlace accepts and null otherwise. -/
def findValidSpawnInTopRow (W H : Nat) (g : Grid) (t : Tetromino) : Option (Int × Int) :=
  if canPlace W H g (setPos t (spawnDefaultX W t) 0) then some (spawnDefaultX W t, 0)
  else
    match (spawnLeft W t).find? (fun x => canPlace W H g (setPos t x 0)) with
    | some x => some (x, 0)
    | none =>
      match (spawnRight W t).find? (fun x => canPlace W H g (setPos t x 0)) with
      | some x => some (x, 0)
      | none => none

/-- Result of TetrisScene.spawnNextTetromino for the new falling piece:
either a spawn position or the game-over transition. -/
inductive SpawnOutcome
  | gameOver
  | spawned (x y : Int)
deriving Repr, DecidableEq

/-- The control flow of TetrisScene.spawnNextTetromino around the spawn
search: a null search result calls gameOver() and returns, otherwise the
piece is placed at the found position (no exception is ever raised). -/
def spawnNextTetromino (W H : Nat) (g : Grid) (t : Tetromino) : SpawnOutcome :=
  match findValidSpawnInTopRow W H g t with
  | none => SpawnOutcome.gameOver
  | some (x, y) => SpawnOutcome.spawned x y

theorem findValidSpawn_eq_find (W H : Nat) (g : Grid) (t : Tetromino) :
    findValidSpawnInTopRow W H g t =
      ((spawnCandidates W t).find? (fun x => canPlace W H g (setPos t x 0))).map
        (fun x => (x, 0)) := by
  unfold findValidSpawnInTopRow spawnCandidates
  by_cases h0 : canPlace W H g (setPos t (spawnDefaultX W t) 0)
  · rw [if_pos h0, List.find?_cons_of_pos _ (by simpa using h0)]
    rfl
  · rw [if_neg h0, List.find?_cons_of_neg _ (by simpa using h0), List.find?_append]
    cases hf : (spawnLeft W t).find? (fun x => canPlace W H g (setPos t x 0)) with
    | some x => simp [Option.or]
    | none =>
      simp only [Option.or]
      cases hr : (spawnRight W t).find? (fun x => canPlace W H g (setPos t x 0)) <;> simp

theorem canPlace_false_left {W H : Nat} {g : Grid} {t : Tetromino}
    (hcol0 : ∃ r, r < t.matrix.length ∧ entry t.matrix r 0 = 1)
    {x : Int} (hx : x < 0) : canPlace W H g (setPos t x 0) = false := by
  obtain ⟨r, hr, he⟩ := hcol0
  have hlen : 0 < rowLen t.matrix r := by
    rcases Nat.eq_zero_or_pos (rowLen t.matrix r) with h0 | hpos
    · exfalso
      have hz : entry t.matrix r 0 = 0 := by
        unfold entry
        exact List.getD_eq_default _ _ (by unfold rowLen at h0; omega)
      omega
    · exact hpos
  by_contra hc
  have hc' : canPlace W H g (setPos t x 0) = true := by
    cases hcp : canPlace W H g (setPos t x 0)
    · exact absurd hcp hc
    · rfl
  have := (canPlace_iff_specCellFree W H g (setPos t x 0)).mp hc' r 0 hr hlen he
  have hxx : (0 : Int) ≤ (setPos t x 0).x + ((0 : Nat) : Int) := this.1
  simp only [setPos] at hxx
  omega

theorem canPlace_false_right {W H : Nat} {g : Grid} {t : Tetromino}
    (hrect : ∀ r, r < t.matrix.length → rowLen t.matrix r = rowLen t.matrix 0)
    (hcolR : ∃ r, r < t.matrix.length ∧ entry t.matrix r (rowLen t.matrix 0 - 1) = 1)
    {x : Int} (hx : (W : Int) - rowLen t.matrix 0 < x) :
    canPlace W H g (setPos t x 0) = false := by
  obtain ⟨r, hr, he⟩ := hcolR
  have hlen : 0 < rowLen t.matrix r := by
    rcases Nat.eq_zero_or_pos (rowLen t.matrix r) with h0 | hpos
    · exfalso
      have hz : entry t.matrix r (rowLen t.matrix 0 - 1) = 0 := by
        unfold entry
        exact List.getD_eq_default _ _ (by unfold rowLen at h0; omega)
      omega
    · exact hpos
  have hmw : 0 < rowLen t.matrix 0 := by rw [← hrect r hr]; exact hlen
  by_contra hc
  have hc' : canPlace W H g (setPos t x 0) = true := by
    cases hcp : canPlace W H g (setPos t x 0)
    · exact absurd hcp hc
    · rfl
  have hcol : rowLen t.matrix 0 - 1 < rowLen t.matrix r := by
    rw [hrect r hr]; omega
  have := (canPlace_iff_specCellFree W H g (setPos t x 0)).mp hc' r
    (rowLen t.matrix 0 - 1) hr hcol he
  have hxx : (setPos t x 0).x + ((rowLen t.matrix 0 - 1 : Nat) : Int) < (W : Int) := this.2.1
  simp only [setPos] at hxx
  omega

theorem mem_spawnCandidates {W : Nat} {t : Tetromino} {x : Int}
    (hge : 0 ≤ x) (hle : x ≤ (W : Int) - rowLen t.matrix 0) :
    x ∈ spawnCandidates W t := by
  have hd0 : 0 ≤ spawnDefaultX W t := by
    unfold spawnDefaultX
    exact Int.fdiv_nonneg (by omega) (by omega)
  have hdle : spawnDefaultX W t ≤ (W : Int) - rowLen t.matrix 0 := by
    unfold spawnDefaultX
    rw [Int.fdiv_eq_ediv _ (by norm_num)]
    exact Int.ediv_le_self 2 (by omega)
  unfold spawnCandidates
  rcases lt_trichotomy x (spawnDefaultX W t) with hlt | heq | hgt
  · refine List.mem_cons_of_mem _ (List.mem_append_left _ ?_)
    unfold spawnLeft
    refine List.mem_map.mpr ⟨(spawnDefaultX W t - 1 - x).toNat, ?_, ?_⟩
    · exact List.mem_range.mpr (by omega)
    · omega
  · exact heq ▸ List.mem_cons_self _ _
  · refine List.mem_cons_of_mem _ (List.mem_append_right _ ?_)
    unfold spawnRight
    refine List.mem_map.mpr ⟨(x - spawnDefaultX W t - 1).toNat, ?_, ?_⟩
    · exact List.mem_range.mpr (by omega)
    · omega

/-- Claim C6: spawn positions in the top row are tried center first, then
successively further left down to column 0, then successively further
right, taking the first column canPlace accepts; the search fails exactly
when no column at all admits placement in the top row, and that failure is
the sole game-over transition of spawning. -/
theorem C6_spawn_order_and_game_over (W H : Nat) (g : Grid) (t : Tetromino)
    (hrect : ∀ r, r < t.matrix.length → rowLen t.matrix r = rowLen t.matrix 0)
    (hcol0 : ∃ r, r < t.matrix.length ∧ entry t.matrix r 0 = 1)
    (hcolR : ∃ r, r < t.matrix.length ∧ entry t.matrix r (rowLen t.matrix 0 - 1) = 1) :
    findValidSpawnInTopRow W H g t =
        ((spawnCandidates W t).find? (fun x => canPlace W H g (setPos t x 0))).map
          (fun x => (x, 0)) ∧
      (findValidSpawnInTopRow W H g t = none ↔
        ∀ x : Int, canPlace W H g (setPos t x 0) = false) ∧
      (spawnNextTetromino W H g t = SpawnOutcome.gameOver ↔
        findValidSpawnInTopRow W H g t = none) := by
  refine ⟨findValidSpawn_eq_find W H g t, ?_, ?_⟩
  · constructor
    · intro hnone x
      rcases le_or_lt 0 x with hge | hlt
      · rcases le_or_lt x ((W : Int) - rowLen t.matrix 0) with hle | hgt
        · rw [findValidSpawn_eq_find W H g t] at hnone
          cases hf : (spawnCandidates W t).find? (fun x => canPlace W H g (setPos t x 0)) with
          | some v => rw [hf] at hnone; simp at hnone
          | none =>
            have := List.find?_eq_none.mp hf x (mem_spawnCandidates hge hle)
            simpa using this
        · exact canPlace_false_right hrect hcolR hgt
      · exact canPlace_false_left hcol0 hlt
    · intro hall
      rw [findValidSpawn_eq_find W H g t]
      have : (spawnCandidates W t).find? (fun x => canPlace W H g (setPos t x 0)) = none := by
        apply List.find?_eq_none.mpr
        intro a _
        simp [hall a]
      simp [this]
  · unfold spawnNextTetromino
    cases hf : findValidSpawnInTopRow W H g t with
    | none => simp
    | some p => cases p; simp

/-- Witness for C6: the square piece over the standard empty 8 x 9 board. -/
theorem C6_spawn_order_and_game_over_witness :
    (∀ r, r < oPiece00.matrix.length → rowLen oPiece00.matrix r = rowLen oPiece00.matrix 0) ∧
      (∃ r, r < oPiece00.matrix.length ∧ entry oPiece00.matrix r 0 = 1) ∧
      (∃ r, r < oPiece00.matrix.length ∧
        entry oPiece00.matrix r (rowLen oPiece00.matrix 0 - 1) = 1) ∧
      ((findValidSpawnInTopRow 8 9 (initializeGrid 8 9) oPiece00 =
          ((spawnCandidates 8 oPiece00).find?
            (fun x => canPlace 8 9 (initializeGrid 8 9) (setPos oPiece00 x 0))).map
            (fun x => (x, 0))) ∧
        (findValidSpawnInTopRow 8 9 (initializeGrid 8 9) oPiece00 = none ↔
          ∀ x : Int, canPlace 8 9 (initializeGrid 8 9) (setPos oPiece00 x 0) = false) ∧
        (spawnNextTetromino 8 9 (initializeGrid 8 9) oPiece00 = SpawnOutcome.gameOver ↔
          findValidSpawnInTopRow 8 9 (initializeGrid 8 9) oPiece00 = none)) := by
  refine ⟨by decide, ⟨0, by decide, by decide⟩, ⟨0, by decide, by decide⟩, ?_⟩
  exact C6_spawn_order_and_game_over 8 9 (initializeGrid 8 9) oPiece00
    (by decide) ⟨0, by decide, by decide⟩ ⟨0, by decide, by decide⟩

/-- Fuel-bounded version of the hard-drop loop of
TetrominoRenderer.calculateLandingPosition: move the piece down one row at
a time while canPlace still accepts the next row. The source loop is
unbounded; for any piece with at least one occupied cell it performs at
most H steps from spawn height, so fuel H + 1 reaches the same fixpoint. -/
def landingAux (W H : Nat) (g : Grid) (t : Tetromino) : Nat → Int → Int
  | 0, ty => ty
  | fuel + 1, ty =>
    if canPlace W H g { t with y := ty + 1 } then landingAux W H g t fuel (ty + 1) else ty

/-- TetrominoRenderer.calculateLandingPosition, returning the resting row. -/
def calculateLandingPosition (W H : Nat) (g : Grid) (t : Tetromino) : Int :=
  landingAux W H g t (H + 1) t.y

/-- TetrominoRenderer.wouldCauseGameOver: some occupied cell of the piece
lies at grid row ≤ 0. -/
def wouldCauseGameOver (t : Tetromino) : Bool :=
  (List.range t.matrix.length).any fun row =>
    (List.range (rowLen t.matrix row)).any fun col =>
      decide (entry t.matrix row col = 1) && decide (t.y + (row : Int) ≤ 0)

/-- Some occupied cell of the piece lies exactly in row 0 (the grid's
spawn/death row). -/
def hasCellInRow0 (t : Tetromino) : Bool :=
  (List.range t.matrix.length).any fun row =>
    (List.range (rowLen t.matrix row)).any fun col =>
      decide (entry t.matrix row col = 1) && decide (t.y + (row : Int) = 0)

/-- TetrominoRenderer.countTilesFilled: number of occupied matrix cells. -/
def countTilesFilled (t : Tetromino) : Int :=
  ∑ row in Finset.range t.matrix.length, ∑ col in Finset.range (rowLen t.matrix row),
    if entry t.matrix row col = 1 then 1 else 0

/-- The copy loop at the start of TetrominoRenderer.simulatePlacement:
an H x W boolean snapshot of the board grid. -/
def copyGrid (W H : Nat) (g : Grid) : Grid :=
  (List.range H).map fun row => (List.range W).map fun col => getCell g row col

/-- TetrominoRenderer.simulatePlacement: copy the current grid, then mark
the in-bounds occupied cells of the piece (the same cell-marking loop as
lockTetromino). -/
def simulatePlacement (W H : Nat) (g : Grid) (t : Tetromino) : Grid :=
  writeTetromino W H t (copyGrid W H g)

/-- The first filled row of a column in TetrominoRenderer.calculateFlatness
(gridHeight when the column is empty). -/
def highestFilled (H : Nat) (g : Grid) (col : Nat) : Nat :=
  ((List.range H).find? (fun row => getCell g row col)).getD H

/-- TetrominoRenderer.calculateFlatness: for every column, each empty cell
below the column's first filled cell is penalized by the depth H - row. -/
def calculateFlatness (W H : Nat) (g : Grid) : Int :=
  ∑ col in Finset.range W, ∑ row in Finset.range H,
    if highestFilled H g col < row ∧ getCell g row col = false then -((H : Int) - row) else 0

/-- TetrominoRenderer.canPlaceInGrid: the same bounds and collision tests
as GameBoard.canPlace, run against the simulated boolean grid. -/
def canPlaceInGrid (W H : Nat) (t : Tetromino) (g : Grid) : Bool := canPlace W H g t

/-- TetrominoRenderer.countWouldFill: occupied piece cells that land on an
in-bounds, currently empty cell of the simulated grid. -/
def countWouldFill (W H : Nat) (t : Tetromino) (g : Grid) : Int :=
  ∑ row in Finset.range t.matrix.length, ∑ col in Finset.range (rowLen t.matrix row),
    if entry t.matrix row col = 1 ∧ 0 ≤ t.y + (row : Int) ∧ t.y + (row : Int) < (H : Int) ∧
        0 ≤ t.x + (col : Int) ∧ t.x + (col : Int) < (W : Int) ∧
        getCell g (t.y + (row : Int)).toNat (t.x + (col : Int)).toNat = false
    then 1 else 0

/-- The inner double loop of TetrominoRenderer.evaluateFuturePotential for
one queued piece: the best fill count over every position of the grid. -/
def bestFit (W H : Nat) (g : Grid) (nt : Tetromino) : Int :=
  (List.range W).foldl (fun best px =>
    (List.range H).foldl (fun best2 py =>
      if canPlaceInGrid W H (setPos nt (px : Int) (py : Int)) g then
        max best2 (countWouldFill W H (setPos nt (px : Int) (py : Int)) g)
      else best2) best) 0

/-- TetrominoRenderer.evaluateFuturePotential: sum of the best single
placement fill counts of the queued pieces. -/
def evaluateFuturePotential (W H : Nat) (g : Grid) (nts : List Tetromino) : Int :=
  (nts.map (bestFit W H g)).sum

/-- TetrominoRenderer.calculateEdgeScore: +2 per row whose matrix column 0
is occupied while the piece sits at x = 0, +2 per row whose last matrix
column is occupied while that column sits at gridWidth - 1, +3 per occupied
cell of the last matrix row while that row sits at gridHeight - 1. -/
def calculateEdgeScore (W H : Nat) (t : Tetromino) : Int :=
  (∑ row in Finset.range t.matrix.length,
      if entry t.matrix row 0 = 1 ∧ t.x = 0 then 2 else 0) +
    (∑ row in Finset.range t.matrix.length,
      if entry t.matrix row (rowLen t.matrix 0 - 1) = 1 ∧
          t.x + ((rowLen t.matrix 0 - 1 : Nat) : Int) = (W : Int) - 1 then 2 else 0) +
    (∑ col in Finset.range (rowLen t.matrix (t.matrix.length - 1)),
      if entry t.matrix (t.matrix.length - 1) col = 1 ∧
          t.y + ((t.matrix.length - 1 : Nat) : Int) = (H : Int) - 1 then 3 else 0)

/-- A fully occupied grid row. -/
def rowFull (W : Nat) (g : Grid) (row : Nat) : Bool :=
  (List.range W).all fun col => getCell g row col

/-- TetrominoRenderer.countCompletedLines: fully occupied rows of the
simulated grid. -/
def countCompletedLines (W H : Nat) (g : Grid) : Int :=
  ∑ row in Finset.range H, if rowFull W g row then 1 else 0

/-- TetrominoRenderer.evaluatePlacement: the weighted sum of the six
scoring factors over the simulated post-placement grid. -/
def evaluatePlacement (W H : Nat) (g : Grid) (t : Tetromino) (nts : List Tetromino) : Int :=
  countTilesFilled t * 10 +
    calculateFlatness W H (simulatePlacement W H g t) * 5 +
    evaluateFuturePotential W H (simulatePlacement W H g t) (nts.take 3) * 3 +
    ((H : Int) - t.y) * 2 +
    calculateEdgeScore W H t +
    countCompletedLines W H (simulatePlacement W H g t) * 50

/-- The {x, y, rotation} record returned by calculateOptimalPlacement. -/
structure Placement where
  x : Int
  y : Int
  rotation : Nat
deriving Repr, DecidableEq

/-- One candidate step of the calculateOptimalPlacement loop: skip offsets
invalid at spawn height, hard-drop the rest, reject landings that touch
row ≤ 0 (wouldCauseGameOver), and keep the best-scoring survivor. The
score accumulator models the source's bestScore, with none standing for
the initial -Infinity. -/
def optStep (W H : Nat) (g : Grid) (t : Tetromino) (nts : List Tetromino)
    (st : Option Int × Placement) (x : Int) : Option Int × Placement :=
  if canPlace W H g (setPos t x 0) then
    if wouldCauseGameOver (setPos t x (calculateLandingPosition W H g (setPos t x 0))) then st
    else
      match st.1 with
      | none => (some (evaluatePlacement W H g
            (setPos t x (calculateLandingPosition W H g (setPos t x 0))) nts),
          ⟨x, calculateLandingPosition W H g (setPos t x 0), t.rotation⟩)
      | some best =>
        if best < evaluatePlacement W H g
            (setPos t x (calculateLandingPosition W H g (setPos t x 0))) nts then
          (some (evaluatePlacement W H g
              (setPos t x (calculateLandingPosition W H g (setPos t x 0))) nts),
            ⟨x, calculateLandingPosition W H g (setPos t x 0), t.rotation⟩)
        else st
  else st

/-- TetrominoRenderer.calculateOptimalPlacement: scan x = -2 .. W - 1 in
order and return the best surviving landing, defaulting to the piece's
current position and rotation. The source first normalizes the piece with
createRotatedTetromino(t, t.rotation), which rebuilds the matrix from
shape.matrix; that call is the identity whenever the piece's matrix field
agrees with its rotation (the invariant generateRandomTetromino and
rotateTetromino maintain), so the embedding works on the piece's current
matrix directly. -/
def calculateOptimalPlacement (W H : Nat) (g : Grid) (t : Tetromino)
    (nts : List Tetromino) : Placement :=
  (((List.range (W + 2)).map fun (i : Nat) => (i : Int) - 2).foldl
    (optStep W H g t nts) (none, ⟨t.x, t.y, t.rotation⟩)).2

theorem hasCellInRow0_of_not_gameOver {t : Tetromino}
    (h : wouldCauseGameOver t = false) : hasCellInRow0 t = false := by
  cases hh : hasCellInRow0 t
  · rfl
  · exfalso
    unfold hasCellInRow0 at hh
    simp only [List.any_eq_true, List.mem_range, Bool.and_eq_true, decide_eq_true_eq] at hh
    obtain ⟨row, hrow, col, hcol, he, hy⟩ := hh
    have hw : wouldCauseGameOver t = true := by
      unfold wouldCauseGameOver
      simp only [List.any_eq_true, List.mem_range, Bool.and_eq_true, decide_eq_true_eq]
      exact ⟨row, hrow, col, hcol, he, by omega⟩
    rw [hw] at h
    exact absurd h (by decide)

/-- Claim C1 (amended): the placement returned by the evaluator either has
no occupied cell of the piece in row 0, or — when no candidate offset
survives the spawn-validity and row-0 rejection filters — is the piece's
current position returned unchanged. -/
theorem C1_optimalPlacement_row0 (W H : Nat) (g : Grid) (t : Tetromino)
    (nts : List Tetromino) :
    ((calculateOptimalPlacement W H g t nts).x = t.x ∧
        (calculateOptimalPlacement W H g t nts).y = t.y) ∨
      hasCellInRow0 (setPos t (calculateOptimalPlacement W H g t nts).x
        (calculateOptimalPlacement W H g t nts).y) = false := by
  unfold calculateOptimalPlacement
  have h := List.foldlRecOn ((List.range (W + 2)).map fun (i : Nat) => (i : Int) - 2)
    (optStep W H g t nts) ((none, ⟨t.x, t.y, t.rotation⟩) : Option Int × Placement)
    (motive := fun st : Option Int × Placement =>
      (st.2.x = t.x ∧ st.2.y = t.y) ∨
        hasCellInRow0 (setPos t st.2.x st.2.y) = false)
    (Or.inl ⟨rfl, rfl⟩) ?_
  · exact h
  · intro st hst x _
    unfold optStep
    by_cases hcp : canPlace W H g (setPos t x 0)
    · rw [if_pos hcp]
      by_cases hgo : wouldCauseGameOver
          (setPos t x (calculateLandingPosition W H g (setPos t x 0))) = true
      · rw [if_pos hgo]; exact hst
      · have hgo' : wouldCauseGameOver
            (setPos t x (calculateLandingPosition W H g (setPos t x 0))) = false := by
          cases hh : wouldCauseGameOver
              (setPos t x (calculateLandingPosition W H g (setPos t x 0)))
          · rfl
          · exact absurd hh hgo
        rw [if_neg hgo]
        have hrow0 := hasCellInRow0_of_not_gameOver hgo'
        rcases hs1 : st.1 with _ | best
        · exact Or.inr hrow0
        · dsimp only
          by_cases hlt : best < evaluatePlacement W H g
              (setPos t x (calculateLandingPosition W H g (setPos t x 0))) nts
          · rw [if_pos hlt]; exact Or.inr hrow0
          · rw [if_neg hlt]; exact hst
    · rw [if_neg hcp]; exact hst

/-- A 2-wide, 3-tall grid whose two bottom rows are completely full. -/
def c1Grid : Grid := [[false, false], [true, true], [true, true]]

/-- Counterexample to claim C1 as stated: on the nearly-full c1Grid no
candidate offset of the square piece survives (every landing would touch
row 0), so calculateOptimalPlacement returns the piece's current spawn
position, which has occupied cells in row 0 — the suggestion itself is an
immediate game-over position. -/
theorem C1_optimalPlacement_row0_cex :
    hasCellInRow0 (setPos oPiece00 (calculateOptimalPlacement 2 3 c1Grid oPiece00 []).x
      (calculateOptimalPlacement 2 3 c1Grid oPiece00 []).y) = true := by
  decide

/-- The spec's wording of the edge-stability factor: over all occupied
cells of the piece, +2 per cell touching the left wall (grid column 0),
+2 per cell touching the right wall (grid column W - 1), +3 per cell
touching the floor (grid row H - 1). -/
def specEdgeScore (W H : Nat) (t : Tetromino) : Int :=
  ∑ row in Finset.range t.matrix.length, ∑ col in Finset.range (rowLen t.matrix row),
    if entry t.matrix row col = 1 then
      (if t.x + (col : Int) = 0 then 2 else 0) +
        (if t.x + (col : Int) = (W : Int) - 1 then 2 else 0) +
        (if t.y + (row : Int) = (H : Int) - 1 then 3 else 0)
    else 0

/-- The spec's wording of the line-completion factor: fully occupied rows
the placement would create, i.e. rows full in the simulated post-placement
grid that were not already full in the snapshot. -/
def createdLines (W H : Nat) (g : Grid) (t : Tetromino) : Int :=
  ∑ row in Finset.range H,
    if rowFull W (simulatePlacement W H g t) row = true ∧
        rowFull W (copyGrid W H g) row = false then 1 else 0

/-- The score claim C7 prescribes literally: the six factors with the
per-cell edge formula and the created-lines count. -/
def specScore (W H : Nat) (g : Grid) (t : Tetromino) (nts : List Tetromino) : Int :=
  countTilesFilled t * 10 +
    calculateFlatness W H (simulatePlacement W H g t) * 5 +
    evaluateFuturePotential W H (simulatePlacement W H g t) (nts.take 3) * 3 +
    ((H : Int) - t.y) * 2 +
    specEdgeScore W H t +
    createdLines W H g t * 50

theorem edgeLeft_eq (W H : Nat) (t : Tetromino)
    (hrect : ∀ r, r < t.matrix.length → rowLen t.matrix r = rowLen t.matrix 0)
    (hcols : 0 < rowLen t.matrix 0)
    (hcol0 : ∃ r, r < t.matrix.length ∧ entry t.matrix r 0 = 1)
    (hbound : ∀ r, r < t.matrix.length → ∀ c, c < rowLen t.matrix r →
      entry t.matrix r c = 1 → 0 ≤ t.x + (c : Int) ∧ t.x + (c : Int) < (W : Int) ∧
        0 ≤ t.y + (r : Int) ∧ t.y + (r : Int) < (H : Int)) :
    (∑ row in Finset.range t.matrix.length, ∑ col in Finset.range (rowLen t.matrix row),
        if entry t.matrix row col = 1 ∧ t.x + (col : Int) = 0 then (2 : Int) else 0) =
      ∑ row in Finset.range t.matrix.length,
        if entry t.matrix row 0 = 1 ∧ t.x = 0 then (2 : Int) else 0 := by
  by_cases hx0 : t.x = 0
  · apply Finset.sum_congr rfl
    intro row hrow
    rw [Finset.mem_range] at hrow
    rw [Finset.sum_eq_single 0]
    · have hiff : (entry t.matrix row 0 = 1 ∧ t.x + ((0 : Nat) : Int) = 0) ↔
          (entry t.matrix row 0 = 1 ∧ t.x = 0) := by
        constructor
        · rintro ⟨h1, h2⟩; exact ⟨h1, by omega⟩
        · rintro ⟨h1, _⟩; exact ⟨h1, by omega⟩
      exact if_congr hiff rfl rfl
    · intro b _ hb0
      have hne : ¬(entry t.matrix row b = 1 ∧ t.x + (b : Int) = 0) := by
        rintro ⟨_, h2⟩
        omega
      rw [if_neg hne]
    · intro h0
      rw [Finset.mem_range] at h0
      exfalso
      have hlen := hrect row hrow
      omega
  · obtain ⟨r0, hr0, he0⟩ := hcol0
    have hxpos : 0 < t.x := by
      have := (hbound r0 hr0 0 (by rw [hrect r0 hr0]; exact hcols) he0).1
      omega
    rw [Finset.sum_eq_zero, Finset.sum_eq_zero]
    · intro row _
      rw [if_neg (by rintro ⟨_, h2⟩; exact hx0 h2)]
    · intro row _
      apply Finset.sum_eq_zero
      intro b _
      rw [if_neg (by rintro ⟨_, h2⟩; omega)]

theorem lt_rowLen_of_entry {m : OccMat} {r c : Nat} (h : entry m r c = 1) :
    c < rowLen m r := by
  by_contra hc
  have hz : entry m r c = 0 := List.getD_eq_default _ _ (by unfold rowLen at hc; omega)
  omega

theorem edgeRight_eq (W H : Nat) (t : Tetromino)
    (hrect : ∀ r, r < t.matrix.length → rowLen t.matrix r = rowLen t.matrix 0)
    (hcols : 0 < rowLen t.matrix 0)
    (hcolR : ∃ r, r < t.matrix.length ∧ entry t.matrix r (rowLen t.matrix 0 - 1) = 1)
    (hbound : ∀ r, r < t.matrix.length → ∀ c, c < rowLen t.matrix r →
      entry t.matrix r c = 1 → 0 ≤ t.x + (c : Int) ∧ t.x + (c : Int) < (W : Int) ∧
        0 ≤ t.y + (r : Int) ∧ t.y + (r : Int) < (H : Int)) :
    (∑ row in Finset.range t.matrix.length, ∑ col in Finset.range (rowLen t.matrix row),
        if entry t.matrix row col = 1 ∧ t.x + (col : Int) = (W : Int) - 1
        then (2 : Int) else 0) =
      ∑ row in Finset.range t.matrix.length,
        if entry t.matrix row (rowLen t.matrix 0 - 1) = 1 ∧
            t.x + ((rowLen t.matrix 0 - 1 : Nat) : Int) = (W : Int) - 1
        then (2 : Int) else 0 := by
  by_cases hxr : t.x + ((rowLen t.matrix 0 - 1 : Nat) : Int) = (W : Int) - 1
  · apply Finset.sum_congr rfl
    intro row hrow
    rw [Finset.mem_range] at hrow
    have hlen := hrect row hrow
    rw [Finset.sum_eq_single (rowLen t.matrix 0 - 1)]
    · intro b _ hb0
      have hne : ¬(entry t.matrix row b = 1 ∧ t.x + (b : Int) = (W : Int) - 1) := by
        rintro ⟨_, h2⟩
        omega
      rw [if_neg hne]
    · intro h0
      rw [Finset.mem_range] at h0
      exfalso
      omega
  · obtain ⟨r1, hr1, he1⟩ := hcolR
    have hbR := (hbound r1 hr1 (rowLen t.matrix 0 - 1)
      (by rw [hrect r1 hr1]; omega) he1).2.1
    rw [Finset.sum_eq_zero, Finset.sum_eq_zero]
    · intro row _
      rw [if_neg (by rintro ⟨_, h2⟩; exact hxr h2)]
    · intro row hrow
      rw [Finset.mem_range] at hrow
      have hlen := hrect row hrow
      apply Finset.sum_eq_zero
      intro b hb
      rw [Finset.mem_range] at hb
      rw [if_neg (by rintro ⟨_, h2⟩; omega)]

theorem edgeBottom_eq (W H : Nat) (t : Tetromino)
    (hlen0 : 0 < t.matrix.length)
    (hrowB : ∃ c, c < rowLen t.matrix (t.matrix.length - 1) ∧
      entry t.matrix (t.matrix.length - 1) c = 1)
    (hbound : ∀ r, r < t.matrix.length → ∀ c, c < rowLen t.matrix r →
      entry t.matrix r c = 1 → 0 ≤ t.x + (c : Int) ∧ t.x + (c : Int) < (W : Int) ∧
        0 ≤ t.y + (r : Int) ∧ t.y + (r : Int) < (H : Int)) :
    (∑ row in Finset.range t.matrix.length, ∑ col in Finset.range (rowLen t.matrix row),
        if entry t.matrix row col = 1 ∧ t.y + (row : Int) = (H : Int) - 1
        then (3 : Int) else 0) =
      ∑ col in Finset.range (rowLen t.matrix (t.matrix.length - 1)),
        if entry t.matrix (t.matrix.length - 1) col = 1 ∧
            t.y + ((t.matrix.length - 1 : Nat) : Int) = (H : Int) - 1
        then (3 : Int) else 0 := by
  by_cases hyb : t.y + ((t.matrix.length - 1 : Nat) : Int) = (H : Int) - 1
  · rw [Finset.sum_eq_single (t.matrix.length - 1)]
    · intro row hrowm hrne
      rw [Finset.mem_range] at hrowm
      apply Finset.sum_eq_zero
      intro b _
      rw [if_neg (by rintro ⟨_, h2⟩; omega)]
    · intro h0
      rw [Finset.mem_range] at h0
      exfalso
      omega
  · obtain ⟨cB, hcB, heB⟩ := hrowB
    have hbB := (hbound (t.matrix.length - 1) (by omega) cB hcB heB).2.2.2
    rw [Finset.sum_eq_zero, Finset.sum_eq_zero]
    · intro col _
      rw [if_neg (by rintro ⟨_, h2⟩; exact hyb h2)]
    · intro row hrow
      rw [Finset.mem_range] at hrow
      apply Finset.sum_eq_zero
      intro b _
      rw [if_neg (by rintro ⟨_, h2⟩; omega)]

theorem specEdgeScore_eq_calculateEdgeScore (W H : Nat) (t : Tetromino)
    (hlen0 : 0 < t.matrix.length)
    (hrect : ∀ r, r < t.matrix.length → rowLen t.matrix r = rowLen t.matrix 0)
    (hcol0 : ∃ r, r < t.matrix.length ∧ entry t.matrix r 0 = 1)
    (hcolR : ∃ r, r < t.matrix.length ∧ entry t.matrix r (rowLen t.matrix 0 - 1) = 1)
    (hrowB : ∃ c, c < rowLen t.matrix (t.matrix.length - 1) ∧
      entry t.matrix (t.matrix.length - 1) c = 1)
    (hbound : ∀ r, r < t.matrix.length → ∀ c, c < rowLen t.matrix r →
      entry t.matrix r c = 1 → 0 ≤ t.x + (c : Int) ∧ t.x + (c : Int) < (W : Int) ∧
        0 ≤ t.y + (r : Int) ∧ t.y + (r : Int) < (H : Int)) :
    specEdgeScore W H t = calculateEdgeScore W H t := by
  have hcols : 0 < rowLen t.matrix 0 := by
    obtain ⟨r0, hr0, he0⟩ := hcol0
    have := lt_rowLen_of_entry he0
    rw [hrect r0 hr0] at this
    omega
  have hstep1 : specEdgeScore W H t =
      ∑ row in Finset.range t.matrix.length,
        ((∑ col in Finset.range (rowLen t.matrix row),
            if entry t.matrix row col = 1 ∧ t.x + (col : Int) = 0 then (2 : Int) else 0) +
          (∑ col in Finset.range (rowLen t.matrix row),
            if entry t.matrix row col = 1 ∧ t.x + (col : Int) = (W : Int) - 1
            then (2 : Int) else 0) +
          (∑ col in Finset.range (rowLen t.matrix row),
            if entry t.matrix row col = 1 ∧ t.y + (row : Int) = (H : Int) - 1
            then (3 : Int) else 0)) := by
    unfold specEdgeScore
    apply Finset.sum_congr rfl
    intro row _
    rw [← Finset.sum_add_distrib, ← Finset.sum_add_distrib]
    apply Finset.sum_congr rfl
    intro col _
    by_cases he : entry t.matrix row col = 1
    · simp [he]
    · simp [he]
  rw [hstep1, Finset.sum_add_distrib, Finset.sum_add_distrib,
    edgeLeft_eq W H t hrect hcols hcol0 hbound,
    edgeRight_eq W H t hrect hcols hcolR hbound,
    edgeBottom_eq W H t hlen0 hrowB hbound]
  rfl

/-- Claim C7 (amended): the evaluator's score is the weighted sum of the
six factors with the spec's per-cell edge-stability formula, except that
the line-completion factor counts every fully occupied row of the
simulated post-placement grid — including rows that were already full
before the placement — rather than only the rows the placement creates. -/
theorem C7_evaluatePlacement_weighted_sum (W H : Nat) (g : Grid) (t : Tetromino)
    (nts : List Tetromino)
    (hlen0 : 0 < t.matrix.length)
    (hrect : ∀ r, r < t.matrix.length → rowLen t.matrix r = rowLen t.matrix 0)
    (hcol0 : ∃ r, r < t.matrix.length ∧ entry t.matrix r 0 = 1)
    (hcolR : ∃ r, r < t.matrix.length ∧ entry t.matrix r (rowLen t.matrix 0 - 1) = 1)
    (hrowB : ∃ c, c < rowLen t.matrix (t.matrix.length - 1) ∧
      entry t.matrix (t.matrix.length - 1) c = 1)
    (hbound : ∀ r, r < t.matrix.length → ∀ c, c < rowLen t.matrix r →
      entry t.matrix r c = 1 → 0 ≤ t.x + (c : Int) ∧ t.x + (c : Int) < (W : Int) ∧
        0 ≤ t.y + (r : Int) ∧ t.y + (r : Int) < (H : Int)) :
    evaluatePlacement W H g t nts =
      countTilesFilled t * 10 +
        calculateFlatness W H (simulatePlacement W H g t) * 5 +
        evaluateFuturePotential W H (simulatePlacement W H g t) (nts.take 3) * 3 +
        ((H : Int) - t.y) * 2 +
        specEdgeScore W H t +
        countCompletedLines W H (simulatePlacement W H g t) * 50 := by
  unfold evaluatePlacement
  rw [specEdgeScore_eq_calculateEdgeScore W H t hlen0 hrect hcol0 hcolR hrowB hbound]

/-- A 3-wide, 4-tall grid whose bottom row is already completely full. -/
def c7Grid : Grid :=
  [[false, false, false], [false, false, false], [false, false, false], [true, true, true]]

/-- The square piece resting on top of the full bottom row of c7Grid. -/
def c7Piece : Tetromino := ⟨oShape, 0, 1, 0, [[1, 1], [1, 1]], ["A"]⟩

/-- Counterexample to claim C7 as stated: on a grid with a pre-existing
full row, the code's score differs from the spec's weighted sum (whose
line factor counts only the rows the placement creates) by 50 per
pre-existing full row, because countCompletedLines counts all full rows of
the simulated grid. -/
theorem C7_evaluatePlacement_weighted_sum_cex :
    evaluatePlacement 3 4 c7Grid c7Piece [] ≠ specScore 3 4 c7Grid c7Piece [] := by
  decide

/-- Witness for C7 at the same concrete resting placement. -/
theorem C7_evaluatePlacement_weighted_sum_witness :
    (0 < c7Piece.matrix.length ∧
      (∀ r, r < c7Piece.matrix.length → rowLen c7Piece.matrix r = rowLen c7Piece.matrix 0) ∧
      (∃ r, r < c7Piece.matrix.length ∧ entry c7Piece.matrix r 0 = 1) ∧
      (∃ r, r < c7Piece.matrix.length ∧
        entry c7Piece.matrix r (rowLen c7Piece.matrix 0 - 1) = 1) ∧
      (∃ c, c < rowLen c7Piece.matrix (c7Piece.matrix.length - 1) ∧
        entry c7Piece.matrix (c7Piece.matrix.length - 1) c = 1) ∧
      (∀ r, r < c7Piece.matrix.length → ∀ c, c < rowLen c7Piece.matrix r →
        entry c7Piece.matrix r c = 1 →
          0 ≤ c7Piece.x + (c : Int) ∧ c7Piece.x + (c : Int) < (3 : Int) ∧
            0 ≤ c7Piece.y + (r : Int) ∧ c7Piece.y + (r : Int) < (4 : Int))) ∧
      evaluatePlacement 3 4 c7Grid c7Piece [] =
        countTilesFilled c7Piece * 10 +
          calculateFlatness 3 4 (simulatePlacement 3 4 c7Grid c7Piece) * 5 +
          evaluateFuturePotential 3 4 (simulatePlacement 3 4 c7Grid c7Piece)
            (List.take 3 []) * 3 +
          ((4 : Int) - c7Piece.y) * 2 +
          specEdgeScore 3 4 c7Piece +
          countCompletedLines 3 4 (simulatePlacement 3 4 c7Grid c7Piece) * 50 := by
  refine ⟨⟨by decide, by decide, by decide, by decide, by decide, by decide⟩, ?_⟩
  exact C7_evaluatePlacement_weighted_sum 3 4 c7Grid c7Piece []
    (by decide) (by decide) (by decide) (by decide) (by decide) (by decide)

/-- GameBoard.canPlace viewed as a method call on the board state: it
reads this.grid and returns it unchanged (its body contains no
assignment). -/
def canPlaceM (W H : Nat) (t : Tetromino) : Grid → Bool × Grid :=
  fun g => (canPlace W H g t, g)

/-- GameBoard.getGrid viewed as a method call: returns this.grid without
modifying it. -/
def getGridM : Grid → Grid × Grid := fun g => (g, g)

/-- State-threaded hard-drop loop: each probe goes through the board's
canPlace method. -/
def landingAuxM (W H : Nat) (t : Tetromino) : Nat → Int → Grid → Int × Grid
  | 0, ty, g => (ty, g)
  | fuel + 1, ty, g =>
    let p := canPlaceM W H { t with y := ty + 1 } g
    if p.1 then landingAuxM W H t fuel (ty + 1) p.2 else (ty, p.2)

/-- State-threaded calculateLandingPosition. -/
def calculateLandingPositionM (W H : Nat) (t : Tetromino) : Grid → Int × Grid :=
  fun g => landingAuxM W H t (H + 1) t.y g

/-- State-threaded simulatePlacement: reads the board through getGrid,
copies it into a fresh local tempGrid and marks the piece there; the
board state itself is only read. -/
def simulatePlacementM (W H : Nat) (t : Tetromino) : Grid → Grid × Grid :=
  fun g =>
    let p := getGridM g
    (writeTetromino W H t (copyGrid W H p.1), p.2)

/-- State-threaded evaluatePlacement: the only board access is the
simulatePlacement read. -/
def evaluatePlacementM (W H : Nat) (t : Tetromino) (nts : List Tetromino) :
    Grid → Int × Grid :=
  fun g =>
    let p := simulatePlacementM W H t g
    (countTilesFilled t * 10 + calculateFlatness W H p.1 * 5 +
      evaluateFuturePotential W H p.1 (nts.take 3) * 3 + ((H : Int) - t.y) * 2 +
      calculateEdgeScore W H t + countCompletedLines W H p.1 * 50, p.2)

/-- One state-threaded candidate step of calculateOptimalPlacement,
sequencing its canPlace, landing and evaluate calls on the board state. -/
def optStepM (W H : Nat) (t : Tetromino) (nts : List Tetromino)
    (st : (Option Int × Placement) × Grid) (x : Int) : (Option Int × Placement) × Grid :=
  let p := canPlaceM W H (setPos t x 0) st.2
  if p.1 then
    let l := calculateLandingPositionM W H (setPos t x 0) p.2
    if wouldCauseGameOver (setPos t x l.1) then (st.1, l.2)
    else
      let e := evaluatePlacementM W H (setPos t x l.1) nts l.2
      match st.1.1 with
      | none => ((some e.1, ⟨x, l.1, t.rotation⟩), e.2)
      | some best =>
        if best < e.1 then ((some e.1, ⟨x, l.1, t.rotation⟩), e.2) else (st.1, e.2)
  else (st.1, p.2)

/-- State-threaded calculateOptimalPlacement: the whole candidate scan as
a function from the board state to the result paired with the final board
state. -/
def calculateOptimalPlacementM (W H : Nat) (t : Tetromino) (nts : List Tetromino) :
    Grid → Placement × Grid :=
  fun g =>
    let r := ((List.range (W + 2)).map fun (i : Nat) => (i : Int) - 2).foldl
      (optStepM W H t nts) ((none, ⟨t.x, t.y, t.rotation⟩), g)
    (r.1.2, r.2)

theorem landingAuxM_eq (W H : Nat) (t : Tetromino) :
    ∀ (fuel : Nat) (ty : Int) (g : Grid),
      landingAuxM W H t fuel ty g = (landingAux W H g t fuel ty, g) := by
  intro fuel
  induction fuel with
  | zero => intro ty g; rfl
  | succ f ih =>
    intro ty g
    unfold landingAuxM landingAux canPlaceM
    by_cases h : canPlace W H g { t with y := ty + 1 }
    · simp only [h, if_true]
      exact ih (ty + 1) g
    · simp only [h, if_false]
      simp at h
      simp [h]

theorem optStepM_eq (W H : Nat) (t : Tetromino) (nts : List Tetromino)
    (st : Option Int × Placement) (g : Grid) (x : Int) :
    optStepM W H t nts (st, g) x = (optStep W H g t nts st x, g) := by
  unfold optStepM optStep canPlaceM calculateLandingPositionM evaluatePlacementM
    simulatePlacementM getGridM calculateLandingPosition evaluatePlacement simulatePlacement
  simp only [landingAuxM_eq]
  by_cases hcp : canPlace W H g (setPos t x 0) = true
  · rw [if_pos hcp, if_pos hcp]
    by_cases hgo : wouldCauseGameOver
        (setPos t x (landingAux W H g (setPos t x 0) (H + 1) (setPos t x 0).y)) = true
    · rw [if_pos hgo, if_pos hgo]
    · rw [if_neg hgo, if_neg hgo]
      rcases hs1 : st.1 with _ | best
      · rfl
      · dsimp only
        by_cases hlt : best < countTilesFilled
              (setPos t x (landingAux W H g (setPos t x 0) (H + 1) (setPos t x 0).y)) * 10 +
            calculateFlatness W H (writeTetromino W H
              (setPos t x (landingAux W H g (setPos t x 0) (H + 1) (setPos t x 0).y))
              (copyGrid W H g)) * 5 +
            evaluateFuturePotential W H (writeTetromino W H
              (setPos t x (landingAux W H g (setPos t x 0) (H + 1) (setPos t x 0).y))
              (copyGrid W H g)) (nts.take 3) * 3 +
            ((H : Int) - (setPos t x (landingAux W H g (setPos t x 0) (H + 1)
              (setPos t x 0).y)).y) * 2 +
            calculateEdgeScore W H
              (setPos t x (landingAux W H g (setPos t x 0) (H + 1) (setPos t x 0).y)) +
            countCompletedLines W H (writeTetromino W H
              (setPos t x (landingAux W H g (setPos t x 0) (H + 1) (setPos t x 0).y))
              (copyGrid W H g)) * 50
        · rw [if_pos hlt, if_pos hlt]
        · rw [if_neg hlt, if_neg hlt]
  · rw [if_neg hcp, if_neg hcp]

theorem foldl_optStepM (W H : Nat) (t : Tetromino) (nts : List Tetromino) :
    ∀ (xs : List Int) (st : Option Int × Placement) (g : Grid),
      xs.foldl (optStepM W H t nts) (st, g) =
        (xs.foldl (optStep W H g t nts) st, g) := by
  intro xs
  induction xs with
  | nil => intro st g; rfl
  | cons a l ih =>
    intro st g
    rw [List.foldl_cons, List.foldl_cons, optStepM_eq]
    exact ih _ g

/-- Claim C8: the placement evaluator is a pure function of the falling
piece, the grid snapshot and the queue: the sequence of board-method calls
it performs leaves the board state unchanged, a second call on the
resulting state returns the identical placement, and its result is exactly
the pure function calculateOptimalPlacement of the snapshot. -/
theorem C8_optimalPlacement_pure (W H : Nat) (t : Tetromino) (nts : List Tetromino)
    (g : Grid) :
    (calculateOptimalPlacementM W H t nts g).2 = g ∧
      (calculateOptimalPlacementM W H t nts
          ((calculateOptimalPlacementM W H t nts g).2)).1 =
        (calculateOptimalPlacementM W H t nts g).1 ∧
      (calculateOptimalPlacementM W H t nts g).1 = calculateOptimalPlacement W H g t nts := by
  have key : ∀ g0 : Grid, calculateOptimalPlacementM W H t nts g0 =
      (calculateOptimalPlacement W H g0 t nts, g0) := by
    intro g0
    unfold calculateOptimalPlacementM calculateOptimalPlacement
    rw [foldl_optStepM]
  rw [key g, key g]
  exact ⟨rfl, rfl, rfl⟩

/-- ShapeManager.LABEL_GAP: minimum gap before the same label may appear
again. -/
def LABEL_GAP : Nat := 4

/-- JavaScript label.includes(' '): some character of the string is a
space (structural embedding over the string's character list). -/
def includesSpace (label : String) : Bool :=
  label.data.any fun c => decide (c = ' ')

/-- Accumulator loop giving JavaScript split(' ') semantics: split on
every single space, keeping empty fragments. -/
def splitSpaceAux : List Char → List Char → List String → List String
  | [], cur, acc => acc ++ [String.mk cur.reverse]
  | c :: cs, cur, acc =>
    if c = ' ' then splitSpaceAux cs [] (acc ++ [String.mk cur.reverse])
    else splitSpaceAux cs (c :: cur) acc

/-- JavaScript label.split(' '). -/
def splitSpace (label : String) : List String := splitSpaceAux label.data [] []

/-- JavaScript words.join(' '). -/
def joinSpace : List String → String
  | [] => ""
  | [w] => w
  | w :: rest => w ++ " " ++ joinSpace rest

/-- JavaScript Set.add: append only when absent (lists model the sets, so
size is length). -/
def addSet {α : Type} [DecidableEq α] (l : List α) (a : α) : List α :=
  if a ∈ l then l else l ++ [a]

/-- The mutable label-scheduling state of ShapeManager: consumedIndices,
nextSearchIndex, recentLabels, usedNoDuplicates and
virtuallyConsumedNoDuplicates. The activeLabelsRef reference check only
resets everything when a different pool array is supplied; runs below use
one fixed pool starting from the fresh state, where that branch clears
already-empty sets. -/
structure SchedState where
  consumedIndices : List Nat
  nextSearchIndex : Nat
  recentLabels : List String
  usedNoDuplicates : List String
  virtuallyConsumedNoDuplicates : List String
deriving Repr, DecidableEq

/-- The fresh state after ShapeManager.reset. -/
def initialSchedState : SchedState := ⟨[], 0, [], [], []⟩

/-- ShapeManager.canUseLabel: a label outside noDuplicates is always
usable; a noDuplicates label is usable only while not yet used. -/
def canUseLabel (nd used : List String) (label : String) : Bool :=
  if label ∈ nd then (if label ∈ used then false else true) else true

/-- ShapeManager.markLabelAsUsed. -/
def markLabelAsUsed (nd : List String) (s : SchedState) (label : String) : SchedState :=
  if label ∈ nd then { s with usedNoDuplicates := addSet s.usedNoDuplicates label } else s

/-- Push onto recentLabels and evict the oldest entry beyond LABEL_GAP. -/
def pushRecent (s : SchedState) (label : String) : SchedState :=
  { s with recentLabels :=
      if LABEL_GAP < (s.recentLabels ++ [label]).length then (s.recentLabels ++ [label]).drop 1
      else s.recentLabels ++ [label] }

/-- ShapeManager.initQueueIfNeeded (for a fixed pool): when every index is
consumed, unblock exactly the virtually consumed noDuplicates labels and
clear the consumed set. -/
def initQueueIfNeeded (labels : List String) (s : SchedState) : SchedState :=
  if labels.length ≤ s.consumedIndices.length then
    { s with
      usedNoDuplicates := s.usedNoDuplicates.filter
        (fun l => decide (l ∉ s.virtuallyConsumedNoDuplicates)),
      virtuallyConsumedNoDuplicates := [],
      consumedIndices := [] }
  else s

/-- The success path shared by both scans: consume the index, advance the
cursor past it, mark the label used and append it to recentLabels. -/
def consumeAt (nd labels : List String) (s : SchedState) (idx : Nat) : SchedState :=
  pushRecent
    (markLabelAsUsed nd
      { s with consumedIndices := addSet s.consumedIndices idx,
               nextSearchIndex := (idx + 1) % labels.length }
      (labels.getD idx ""))
    (labels.getD idx "")

/-- The wrapped index sequence both scans traverse: nextSearchIndex,
nextSearchIndex + 1, ... modulo the pool length. -/
def scanIdxs (labels : List String) (s : SchedState) : List Nat :=
  (List.range labels.length).map fun i => (s.nextSearchIndex + i) % labels.length

/-- The main scan loop of ShapeManager.getNextLabelFromArray: skip
consumed indices, virtually consume blocked noDuplicates labels, skip
labels inside the fairness window while enough eligible labels remain, and
consume the first acceptable label. -/
def scanNext (nd labels : List String) (total : Nat) :
    List Nat → SchedState → Option Nat × SchedState
  | [], s => (none, s)
  | idx :: rest, s =>
    if idx ∈ s.consumedIndices then scanNext nd labels total rest s
    else
      if canUseLabel nd s.usedNoDuplicates (labels.getD idx "") then
        if labels.getD idx "" ∈ s.recentLabels ∧
            LABEL_GAP < total - s.virtuallyConsumedNoDuplicates.length then
          scanNext nd labels total rest s
        else (some idx, consumeAt nd labels s idx)
      else
        if labels.getD idx "" ∈ nd then
          scanNext nd labels total rest
            { s with consumedIndices := addSet s.consumedIndices idx,
                     virtuallyConsumedNoDuplicates :=
                       addSet s.virtuallyConsumedNoDuplicates (labels.getD idx "") }
        else scanNext nd labels total rest s

/-- The retry loop of getNextLabelFromArray after its inline cycle reset:
only the canUseLabel check remains. -/
def scanRetry (nd labels : List String) : List Nat → SchedState → Option Nat × SchedState
  | [], s => (none, s)
  | idx :: rest, s =>
    if canUseLabel nd s.usedNoDuplicates (labels.getD idx "") then
      (some idx, consumeAt nd labels s idx)
    else scanRetry nd labels rest s

/-- ShapeManager.getNextLabelFromArray: sequential forward scan from the
persistent cursor with queue semantics; on total exhaustion perform the
inline cycle reset and retry once, finally falling back to labels[0]. -/
def getNextLabelFromArray (nd labels : List String) (s0 : SchedState) :
    String × SchedState :=
  if labels.length = 0 then ("Label", s0)
  else
    let s := initQueueIfNeeded labels s0
    match scanNext nd labels (labels.length - s.consumedIndices.length)
        (scanIdxs labels s) s with
    | (some idx, s1) => (labels.getD idx "", s1)
    | (none, s1) =>
      if labels.length ≤ s1.consumedIndices.length then
        match scanRetry nd labels
            (scanIdxs labels
              { s1 with
                usedNoDuplicates := s1.usedNoDuplicates.filter
                  (fun l => decide (l ∉ s1.virtuallyConsumedNoDuplicates)),
                virtuallyConsumedNoDuplicates := [],
                consumedIndices := [] })
            { s1 with
              usedNoDuplicates := s1.usedNoDuplicates.filter
                (fun l => decide (l ∉ s1.virtuallyConsumedNoDuplicates)),
              virtuallyConsumedNoDuplicates := [],
              consumedIndices := [] } with
        | (some idx, s3) => (labels.getD idx "", s3)
        | (none, s3) => (labels.getD 0 "", s3)
      else (labels.getD 0 "", s1)

/-- The unconsumed-multi-word count computed at the top of
ShapeManager.getTwoWordLabelFromArray. -/
def countUnconsumedMW (nd labels : List String) (s : SchedState) : Nat :=
  ((List.range labels.length).filter fun i =>
    decide (i ∉ s.consumedIndices) && includesSpace (labels.getD i "") &&
      canUseLabel nd s.usedNoDuplicates (labels.getD i "")).length

/-- The scan loop of getTwoWordLabelFromArray: single-word labels are
skipped without being consumed, blocked multi-word noDuplicates labels are
virtually consumed, recently used labels are skipped while another
eligible multi-word label remains. -/
def scanTwo (nd labels : List String) (mwCount : Nat) :
    List Nat → SchedState → Option Nat × SchedState
  | [], s => (none, s)
  | idx :: rest, s =>
    if idx ∈ s.consumedIndices then scanTwo nd labels mwCount rest s
    else
      if includesSpace (labels.getD idx "") = false then scanTwo nd labels mwCount rest s
      else
        if canUseLabel nd s.usedNoDuplicates (labels.getD idx "") then
          if labels.getD idx "" ∈ s.recentLabels ∧ 1 < mwCount then
            scanTwo nd labels mwCount rest s
          else (some idx, consumeAt nd labels s idx)
        else
          if labels.getD idx "" ∈ nd then
            scanTwo nd labels mwCount rest
              { s with consumedIndices := addSet s.consumedIndices idx,
                       virtuallyConsumedNoDuplicates :=
                         addSet s.virtuallyConsumedNoDuplicates (labels.getD idx "") }
          else scanTwo nd labels mwCount rest s

/-- The label-selection part of ShapeManager.getTwoWordLabelFromArray:
null when the pool has no multi-word label at all, otherwise the scan
from the persistent cursor. -/
def selectTwoWordIdx (nd labels : List String) (s0 : SchedState) :
    Option Nat × SchedState :=
  if (labels.filter fun l => includesSpace l).length = 0 then (none, s0)
  else
    let s := initQueueIfNeeded labels s0
    scanTwo nd labels (countUnconsumedMW nd labels s) (scanIdxs labels s) s

/-- The final split of getTwoWordLabelFromArray: words = label.split(' '),
midPoint = Math.ceil(words.length / 2), halves rejoined with spaces. -/
def splitBalanced (label : String) : String × String :=
  (joinSpace ((splitSpace label).take (((splitSpace label).length + 1) / 2)),
    joinSpace ((splitSpace label).drop (((splitSpace label).length + 1) / 2)))

/-- ShapeManager.getTwoWordLabelFromArray: the selected multi-word label
split into two balanced halves. -/
def getTwoWordLabelFromArray (nd labels : List String) (s0 : SchedState) :
    Option (String × String) × SchedState :=
  match selectTwoWordIdx nd labels s0 with
  | (some idx, s1) => (some (splitBalanced (labels.getD idx "")), s1)
  | (none, s1) => (none, s1)

/-- The spec's hyphen normalization before splitting a splittable label. -/
def specNormalizeHyphens (label : String) : String :=
  String.mk (label.data.map fun c => if c = '-' then ' ' else c)

/-- The split claim C4 prescribes: normalize hyphens to spaces, split into
words, divide at ceil(word_count / 2). -/
def specSplitBalanced (label : String) : String × String :=
  splitBalanced (specNormalizeHyphens label)

theorem scanTwo_some_mem (nd labels : List String) (mwCount : Nat) :
    ∀ (idxs : List Nat) (s : SchedState) (idx : Nat) (s1 : SchedState),
      scanTwo nd labels mwCount idxs s = (some idx, s1) →
      idx ∈ idxs ∧ includesSpace (labels.getD idx "") = true := by
  intro idxs
  induction idxs with
  | nil => intro s idx s1 h; exact absurd (congrArg Prod.fst h) (by simp [scanTwo])
  | cons a rest ih =>
    intro s idx s1 h
    unfold scanTwo at h
    by_cases h1 : a ∈ s.consumedIndices
    · rw [if_pos h1] at h
      obtain ⟨hm, hc⟩ := ih s idx s1 h
      exact ⟨List.mem_cons_of_mem _ hm, hc⟩
    · rw [if_neg h1] at h
      by_cases h2 : includesSpace (labels.getD a "") = false
      · rw [if_pos h2] at h
        obtain ⟨hm, hc⟩ := ih s idx s1 h
        exact ⟨List.mem_cons_of_mem _ hm, hc⟩
      · rw [if_neg h2] at h
        by_cases h3 : canUseLabel nd s.usedNoDuplicates (labels.getD a "") = true
        · rw [if_pos h3] at h
          by_cases h4 : labels.getD a "" ∈ s.recentLabels ∧ 1 < mwCount
          · rw [if_pos h4] at h
            obtain ⟨hm, hc⟩ := ih s idx s1 h
            exact ⟨List.mem_cons_of_mem _ hm, hc⟩
          · rw [if_neg h4] at h
            have hidx : idx = a := by
              have := congrArg Prod.fst h
              simpa using this.symm
            subst hidx
            refine ⟨List.mem_cons_self _ _, ?_⟩
            cases hcc : includesSpace (labels.getD idx "")
            · exact absurd hcc h2
            · rfl
        · rw [if_neg h3] at h
          by_cases h5 : labels.getD a "" ∈ nd
          · rw [if_pos h5] at h
            obtain ⟨hm, hc⟩ := ih _ idx s1 h
            exact ⟨List.mem_cons_of_mem _ hm, hc⟩
          · rw [if_neg h5] at h
            obtain ⟨hm, hc⟩ := ih s idx s1 h
            exact ⟨List.mem_cons_of_mem _ hm, hc⟩

/-- Claim C4 (amended): for every selected splittable label the two halves
come from splitting the label into words on spaces only (hyphens are not
normalized, and a label whose only separators are hyphens is never
selected as splittable), dividing at split_point = ceil(word_count / 2):
the first half is the first split_point words rejoined, the second half
the remaining words rejoined. -/
theorem C4_twoWordLabel_split (nd labels : List String) (s0 : SchedState) (idx : Nat)
    (hsel : (selectTwoWordIdx nd labels s0).1 = some idx) :
    idx < labels.length ∧ includesSpace (labels.getD idx "") = true ∧
      (getTwoWordLabelFromArray nd labels s0).1 =
        some (joinSpace ((splitSpace (labels.getD idx "")).take
            (((splitSpace (labels.getD idx "")).length + 1) / 2)),
          joinSpace ((splitSpace (labels.getD idx "")).drop
            (((splitSpace (labels.getD idx "")).length + 1) / 2))) := by
  rcases hfull : selectTwoWordIdx nd labels s0 with ⟨o, s1⟩
  rw [hfull] at hsel
  simp only at hsel
  subst hsel
  have hsel2 := hfull
  unfold selectTwoWordIdx at hsel2
  by_cases h0 : (labels.filter fun l => includesSpace l).length = 0
  · rw [if_pos h0] at hsel2
    exact absurd (congrArg Prod.fst hsel2) (by simp)
  · rw [if_neg h0] at hsel2
    obtain ⟨hm, hc⟩ := scanTwo_some_mem nd labels _ _ _ idx s1 hsel2
    have hlen : 0 < labels.length := by
      rcases labels with _ | ⟨a, l⟩
      · simp at h0
      · simp
    have hidxlt : idx < labels.length := by
      unfold scanIdxs at hm
      obtain ⟨i, _, hi⟩ := List.mem_map.mp hm
      rw [← hi]
      exact Nat.mod_lt _ hlen
    refine ⟨hidxlt, hc, ?_⟩
    unfold getTwoWordLabelFromArray
    rw [hfull]
    rfl

/-- Witness for C4: the spec's own five-word scenario; the pool label
"join the dots today please" is selected and split at ceil(5 / 2) = 3. -/
theorem C4_twoWordLabel_split_witness :
    (selectTwoWordIdx [] ["join the dots today please"] initialSchedState).1 = some 0 ∧
      (0 < 1 ∧ includesSpace "join the dots today please" = true ∧
        (getTwoWordLabelFromArray [] ["join the dots today please"] initialSchedState).1 =
          some (joinSpace ((splitSpace "join the dots today please").take
              (((splitSpace "join the dots today please").length + 1) / 2)),
            joinSpace ((splitSpace "join the dots today please").drop
              (((splitSpace "join the dots today please").length + 1) / 2)))) := by
  constructor
  · rfl
  · exact C4_twoWordLabel_split [] ["join the dots today please"] initialSchedState 0 rfl

/-- Counterexample to claim C4 as stated: hyphens are never normalized to
spaces. On the pool ["a-b c"] the code returns the halves ("a-b", "c"),
while the spec's normalize-then-split rule would give ("a b", "c"). -/
theorem C4_twoWordLabel_split_cex :
    (getTwoWordLabelFromArray [] ["a-b c"] initialSchedState).1 = some ("a-b", "c") ∧
      specSplitBalanced "a-b c" = ("a b", "c") ∧
      (("a-b", "c") : String × String) ≠ ("a b", "c") := by
  refine ⟨rfl, rfl, by decide⟩

/-- A label-scheduler request: a single-anchor label draw
(getNextLabelFromArray) or a two-anchor splittable draw
(getTwoWordLabelFromArray). -/
inductive LabelReq
  | one
  | two
deriving Repr, DecidableEq

/-- The sequence of pool labels the scheduler assigns over a run of
requests: every getNextLabelFromArray call returns a label; a two-word
call assigns its selected pool label or nothing when no splittable label
is eligible. -/
def runScheduler (nd labels : List String) : SchedState → List LabelReq → List String
  | _, [] => []
  | s, LabelReq.one :: rs =>
    (getNextLabelFromArray nd labels s).1 ::
      runScheduler nd labels (getNextLabelFromArray nd labels s).2 rs
  | s, LabelReq.two :: rs =>
    match selectTwoWordIdx nd labels s with
    | (some idx, s1) => labels.getD idx "" :: runScheduler nd labels s1 rs
    | (none, s1) => runScheduler nd labels s1 rs

/-- The scheduler-state invariant tying the state to the multiset A of
labels assigned so far in the current (first) cycle: consumed indices are
exactly the indices of assigned labels, usedNoDuplicates only contains
assigned labels, nothing is virtually consumed, and the fairness ring
holds at most LABEL_GAP entries. -/
def SchedInv (labels : List String) (s : SchedState) (A : List String) : Prop :=
  (∀ idx, idx ∈ s.consumedIndices ↔ (idx < labels.length ∧ labels.getD idx "" ∈ A)) ∧
    s.consumedIndices.Nodup ∧
    s.consumedIndices.length = A.length ∧
    (∀ l ∈ s.usedNoDuplicates, l ∈ A) ∧
    s.virtuallyConsumedNoDuplicates = [] ∧
    s.recentLabels.length ≤ LABEL_GAP

theorem getD_mem_of_lt {labels : List String} {i : Nat} (h : i < labels.length) :
    labels.getD i "" ∈ labels := by
  rw [List.getD_eq_getElem?_getD, List.getElem?_eq_getElem h]
  exact List.getElem_mem h

theorem getD_inj_of_nodup {labels : List String} (hnodup : labels.Nodup)
    {i j : Nat} (hi : i < labels.length) (hj : j < labels.length)
    (h : labels.getD i "" = labels.getD j "") : i = j := by
  have hgi : labels.getD i "" = labels.get ⟨i, hi⟩ := by
    simp [List.getD_eq_getElem?_getD, List.getElem?_eq_getElem hi]
  have hgj : labels.getD j "" = labels.get ⟨j, hj⟩ := by
    simp [List.getD_eq_getElem?_getD, List.getElem?_eq_getElem hj]
  rw [hgi, hgj] at h
  have := (hnodup.get_inj_iff).mp h
  exact congrArg Fin.val this

theorem usable_of_inv {nd labels : List String} {s : SchedState} {A : List String}
    (hinv : SchedInv labels s A) {idx : Nat} (hlt : idx < labels.length)
    (hunc : idx ∉ s.consumedIndices) :
    canUseLabel nd s.usedNoDuplicates (labels.getD idx "") = true := by
  obtain ⟨inv1, _, _, inv4, _, _⟩ := hinv
  unfold canUseLabel
  by_cases hnd : labels.getD idx "" ∈ nd
  · rw [if_pos hnd]
    by_cases hused : labels.getD idx "" ∈ s.usedNoDuplicates
    · exfalso
      exact hunc ((inv1 idx).mpr ⟨hlt, inv4 _ hused⟩)
    · rw [if_neg hused]
  · rw [if_neg hnd]

theorem mem_scanIdxs {labels : List String} {s : SchedState} {idx : Nat}
    (hn : 0 < labels.length) (hlt : idx < labels.length) :
    idx ∈ scanIdxs labels s := by
  unfold scanIdxs
  have hr : s.nextSearchIndex % labels.length < labels.length := Nat.mod_lt _ hn
  have hdm := Nat.div_add_mod s.nextSearchIndex labels.length
  by_cases hcase : s.nextSearchIndex % labels.length ≤ idx
  · refine List.mem_map.mpr
      ⟨idx - s.nextSearchIndex % labels.length, List.mem_range.mpr (by omega), ?_⟩
    have h1 : s.nextSearchIndex + (idx - s.nextSearchIndex % labels.length) =
        labels.length * (s.nextSearchIndex / labels.length) + idx := by omega
    rw [h1, Nat.mul_add_mod]
    exact Nat.mod_eq_of_lt hlt
  · refine List.mem_map.mpr
      ⟨labels.length - s.nextSearchIndex % labels.length + idx,
        List.mem_range.mpr (by omega), ?_⟩
    have h1 : s.nextSearchIndex +
        (labels.length - s.nextSearchIndex % labels.length + idx) =
        labels.length * (s.nextSearchIndex / labels.length + 1) + idx := by
      have h2 : labels.length * (s.nextSearchIndex / labels.length + 1) =
          labels.length * (s.nextSearchIndex / labels.length) + labels.length := by ring
      omega
    rw [h1, Nat.mul_add_mod]
    exact Nat.mod_eq_of_lt hlt

theorem scanIdxs_lt {labels : List String} {s : SchedState} {idx : Nat}
    (hn : 0 < labels.length) (hm : idx ∈ scanIdxs labels s) : idx < labels.length := by
  unfold scanIdxs at hm
  obtain ⟨i, _, hi⟩ := List.mem_map.mp hm
  rw [← hi]
  exact Nat.mod_lt _ hn

theorem consumeAt_fields (nd labels : List String) (s : SchedState) (idx : Nat)
    (hunc : idx ∉ s.consumedIndices) :
    (consumeAt nd labels s idx).consumedIndices = s.consumedIndices ++ [idx] ∧
      (consumeAt nd labels s idx).usedNoDuplicates =
        (if labels.getD idx "" ∈ nd then addSet s.usedNoDuplicates (labels.getD idx "")
         else s.usedNoDuplicates) ∧
      (consumeAt nd labels s idx).virtuallyConsumedNoDuplicates =
        s.virtuallyConsumedNoDuplicates ∧
      (consumeAt nd labels s idx).recentLabels =
        (if LABEL_GAP < (s.recentLabels ++ [labels.getD idx ""]).length
         then (s.recentLabels ++ [labels.getD idx ""]).drop 1
         else s.recentLabels ++ [labels.getD idx ""]) := by
  unfold consumeAt pushRecent markLabelAsUsed addSet
  rw [if_neg hunc]
  by_cases hmem : labels.getD idx "" ∈ nd
  · rw [if_pos hmem, if_pos hmem]
    refine ⟨?_, ?_, ?_, ?_⟩ <;> rfl
  · rw [if_neg hmem, if_neg hmem]
    refine ⟨?_, ?_, ?_, ?_⟩ <;> rfl

theorem consumeAt_inv {nd labels : List String} {s : SchedState} {A : List String}
    (hnodup : labels.Nodup) (hinv : SchedInv labels s A) {idx : Nat}
    (hlt : idx < labels.length) (hunc : idx ∉ s.consumedIndices) :
    SchedInv labels (consumeAt nd labels s idx) (A ++ [labels.getD idx ""]) := by
  obtain ⟨inv1, inv2, inv3, inv4, inv5, inv6⟩ := hinv
  obtain ⟨hf1, hf2, hf3, hf4⟩ := consumeAt_fields nd labels s idx hunc
  refine ⟨?_, ?_, ?_, ?_, ?_, ?_⟩
  · intro j
    rw [hf1]
    simp only [List.mem_append, List.mem_singleton]
    constructor
    · rintro (hj | rfl)
      · obtain ⟨hjl, hjA⟩ := (inv1 j).mp hj
        exact ⟨hjl, Or.inl hjA⟩
      · exact ⟨hlt, Or.inr rfl⟩
    · rintro ⟨hjl, hjA | heq⟩
      · exact Or.inl ((inv1 j).mpr ⟨hjl, hjA⟩)
      · exact Or.inr (getD_inj_of_nodup hnodup hjl hlt heq)
  · rw [hf1]
    rw [List.nodup_append]
    refine ⟨inv2, List.nodup_singleton _, ?_⟩
    intro a ha hb
    rw [List.mem_singleton] at hb
    subst hb
    exact hunc ha
  · rw [hf1]
    simp [inv3]
  · rw [hf2]
    intro l hl
    by_cases hmem : labels.getD idx "" ∈ nd
    · rw [if_pos hmem] at hl
      unfold addSet at hl
      by_cases hin : labels.getD idx "" ∈ s.usedNoDuplicates
      · rw [if_pos hin] at hl
        exact List.mem_append_left _ (inv4 l hl)
      · rw [if_neg hin] at hl
        rcases List.mem_append.mp hl with h | h
        · exact List.mem_append_left _ (inv4 l h)
        · rw [List.mem_singleton] at h
          subst h
          exact List.mem_append_right _ (List.mem_singleton_self _)
    · rw [if_neg hmem] at hl
      exact List.mem_append_left _ (inv4 l hl)
  · rw [hf3]
    exact inv5
  · rw [hf4]
    by_cases hlen : LABEL_GAP < (s.recentLabels ++ [labels.getD idx ""]).length
    · rw [if_pos hlen]
      simp only [List.length_drop, List.length_append, List.length_singleton]
      unfold LABEL_GAP at inv6 ⊢
      omega
    · rw [if_neg hlen]
      omega

theorem nodup_subset_length {α : Type} [DecidableEq α] {l1 l2 : List α}
    (h1 : l1.Nodup) (hs : l1 ⊆ l2) : l1.length ≤ l2.length := by
  calc l1.length = l1.toFinset.card := (List.toFinset_card_of_nodup h1).symm
    _ ≤ l2.toFinset.card := by
        apply Finset.card_le_card
        intro x hx
        rw [List.mem_toFinset] at hx ⊢
        exact hs hx
    _ ≤ l2.length := l2.toFinset_card_le

theorem scanNext_found (nd labels : List String) (total : Nat) :
    ∀ (idxs : List Nat) (s : SchedState),
      (∀ idx ∈ idxs, idx ∉ s.consumedIndices →
        canUseLabel nd s.usedNoDuplicates (labels.getD idx "") = true) →
      (∃ idx ∈ idxs, idx ∉ s.consumedIndices ∧
        (labels.getD idx "" ∉ s.recentLabels ∨
          ¬ LABEL_GAP < total - s.virtuallyConsumedNoDuplicates.length)) →
      ∃ idx, idx ∈ idxs ∧ idx ∉ s.consumedIndices ∧
        scanNext nd labels total idxs s = (some idx, consumeAt nd labels s idx) := by
  intro idxs
  induction idxs with
  | nil =>
    intro s _ hacc
    obtain ⟨idx, hm, _⟩ := hacc
    exact absurd hm (List.not_mem_nil idx)
  | cons a rest ih =>
    intro s husable hacc
    by_cases h1 : a ∈ s.consumedIndices
    · have hrest : ∃ idx ∈ rest, idx ∉ s.consumedIndices ∧
          (labels.getD idx "" ∉ s.recentLabels ∨
            ¬ LABEL_GAP < total - s.virtuallyConsumedNoDuplicates.length) := by
        obtain ⟨idx, hm, hu, hok⟩ := hacc
        rcases List.mem_cons.mp hm with rfl | hm2
        · exact absurd h1 hu
        · exact ⟨idx, hm2, hu, hok⟩
      obtain ⟨idx, hm, hu, heq⟩ := ih s
        (fun idx hm hu => husable idx (List.mem_cons_of_mem _ hm) hu) hrest
      refine ⟨idx, List.mem_cons_of_mem _ hm, hu, ?_⟩
      unfold scanNext
      rw [if_pos h1]
      exact heq
    · have hu := husable a (List.mem_cons_self _ _) h1
      by_cases h4 : labels.getD a "" ∈ s.recentLabels ∧
          LABEL_GAP < total - s.virtuallyConsumedNoDuplicates.length
      · have hrest : ∃ idx ∈ rest, idx ∉ s.consumedIndices ∧
            (labels.getD idx "" ∉ s.recentLabels ∨
              ¬ LABEL_GAP < total - s.virtuallyConsumedNoDuplicates.length) := by
          obtain ⟨idx, hm, hum, hok⟩ := hacc
          rcases List.mem_cons.mp hm with rfl | hm2
          · rcases hok with hok | hok
            · exact absurd h4.1 hok
            · exact absurd h4.2 hok
          · exact ⟨idx, hm2, hum, hok⟩
        obtain ⟨idx, hm, hum, heq⟩ := ih s
          (fun idx hm hu2 => husable idx (List.mem_cons_of_mem _ hm) hu2) hrest
        refine ⟨idx, List.mem_cons_of_mem _ hm, hum, ?_⟩
        unfold scanNext
        rw [if_neg h1, if_pos hu, if_pos h4]
        exact heq
      · refine ⟨a, List.mem_cons_self _ _, h1, ?_⟩
        unfold scanNext
        rw [if_neg h1, if_pos hu, if_neg h4]

theorem scanTwo_cases (nd labels : List String) (mwCount : Nat) :
    ∀ (idxs : List Nat) (s : SchedState),
      (∀ idx ∈ idxs, idx ∉ s.consumedIndices →
        canUseLabel nd s.usedNoDuplicates (labels.getD idx "") = true) →
      scanTwo nd labels mwCount idxs s = (none, s) ∨
        ∃ idx, idx ∈ idxs ∧ idx ∉ s.consumedIndices ∧
          scanTwo nd labels mwCount idxs s = (some idx, consumeAt nd labels s idx) := by
  intro idxs
  induction idxs with
  | nil => intro s _; exact Or.inl rfl
  | cons a rest ih =>
    intro s husable
    have hstep : ∀ h : scanTwo nd labels mwCount (a :: rest) s =
        scanTwo nd labels mwCount rest s,
        scanTwo nd labels mwCount (a :: rest) s = (none, s) ∨
          ∃ idx, idx ∈ (a :: rest) ∧ idx ∉ s.consumedIndices ∧
            scanTwo nd labels mwCount (a :: rest) s = (some idx, consumeAt nd labels s idx) := by
      intro h
      rcases ih s (fun idx hm hu => husable idx (List.mem_cons_of_mem _ hm) hu) with
        hnone | ⟨idx, hm, hu, heq⟩
      · exact Or.inl (h.trans hnone)
      · exact Or.inr ⟨idx, List.mem_cons_of_mem _ hm, hu, h.trans heq⟩
    by_cases h1 : a ∈ s.consumedIndices
    · exact hstep (by simp only [scanTwo]; rw [if_pos h1])
    · have hu := husable a (List.mem_cons_self _ _) h1
      by_cases h2 : includesSpace (labels.getD a "") = false
      · exact hstep (by simp only [scanTwo]; rw [if_neg h1, if_pos h2])
      · by_cases h4 : labels.getD a "" ∈ s.recentLabels ∧ 1 < mwCount
        · exact hstep (by simp only [scanTwo]; rw [if_neg h1, if_neg h2, if_pos hu, if_pos h4])
        · refine Or.inr ⟨a, List.mem_cons_self _ _, h1, ?_⟩
          unfold scanTwo
          rw [if_neg h1, if_neg h2, if_pos hu, if_neg h4]


theorem exists_accept {labels : List String} {s : SchedState} {A : List String}
    (hnodup : labels.Nodup) (hinv : SchedInv labels s A)
    (hA : A.length < labels.length) :
    ∃ idx ∈ scanIdxs labels s, idx ∉ s.consumedIndices ∧
      (labels.getD idx "" ∉ s.recentLabels ∨
        ¬ LABEL_GAP < (labels.length - s.consumedIndices.length) -
          s.virtuallyConsumedNoDuplicates.length) := by
  obtain ⟨inv1, inv2, inv3, inv4, inv5, inv6⟩ := hinv
  have hn : 0 < labels.length := by omega
  have heffeq : (labels.length - s.consumedIndices.length) -
      s.virtuallyConsumedNoDuplicates.length = labels.length - A.length := by
    rw [inv5, inv3]
    simp
  by_cases heff : LABEL_GAP < labels.length - A.length
  · have hfiltereq : (Finset.range labels.length).filter
        (fun idx => idx ∈ s.consumedIndices) = s.consumedIndices.toFinset := by
      ext x
      simp only [Finset.mem_filter, Finset.mem_range, List.mem_toFinset]
      constructor
      · rintro ⟨_, hx⟩; exact hx
      · intro hx; exact ⟨((inv1 x).mp hx).1, hx⟩
    have hcardcons : ((Finset.range labels.length).filter
        (fun idx => idx ∈ s.consumedIndices)).card = A.length := by
      rw [hfiltereq, List.toFinset_card_of_nodup inv2, inv3]
    have hsplit := Finset.filter_card_add_filter_neg_card_eq_card
      (s := Finset.range labels.length) (p := fun idx => idx ∈ s.consumedIndices)
    have hUcard : ((Finset.range labels.length).filter
        (fun idx => ¬ idx ∈ s.consumedIndices)).card = labels.length - A.length := by
      rw [Finset.card_range] at hsplit
      omega
    set U := (Finset.range labels.length).filter (fun idx => ¬ idx ∈ s.consumedIndices)
      with hU
    have hinj : Set.InjOn (fun idx => labels.getD idx "") U := by
      intro x hx y hy hxy
      rw [hU, Finset.coe_filter] at hx hy
      simp only [Set.mem_setOf_eq, Finset.mem_range] at hx hy
      exact getD_inj_of_nodup hnodup hx.1 hy.1 hxy
    by_cases hall : ∀ idx ∈ U, labels.getD idx "" ∈ s.recentLabels
    · exfalso
      have himg : U.image (fun idx => labels.getD idx "") ⊆ s.recentLabels.toFinset := by
        intro l hl
        obtain ⟨idx, hidx, rfl⟩ := Finset.mem_image.mp hl
        rw [List.mem_toFinset]
        exact hall idx hidx
      have h1 := Finset.card_image_of_injOn hinj
      have h2 := Finset.card_le_card himg
      have h3 := s.recentLabels.toFinset_card_le
      rw [h1, hUcard] at h2
      unfold LABEL_GAP at heff inv6
      omega
    · push_neg at hall
      obtain ⟨idx, hidxU, hnr⟩ := hall
      rw [hU, Finset.mem_filter, Finset.mem_range] at hidxU
      exact ⟨idx, mem_scanIdxs hn hidxU.1, hidxU.2, Or.inl hnr⟩
  · have hex : ∃ idx, idx < labels.length ∧ idx ∉ s.consumedIndices := by
      by_contra hnone
      push_neg at hnone
      have hsub : List.range labels.length ⊆ s.consumedIndices := by
        intro x hx
        exact hnone x (List.mem_range.mp hx)
      have := nodup_subset_length (List.nodup_range labels.length) hsub
      rw [List.length_range, inv3] at this
      omega
    obtain ⟨idx, hlt, hunc⟩ := hex
    refine ⟨idx, mem_scanIdxs hn hlt, hunc, Or.inr ?_⟩
    rw [heffeq]
    exact heff

theorem getNext_step (nd : List String) {labels : List String} {s : SchedState}
    {A : List String} (hnodup : labels.Nodup) (hinv : SchedInv labels s A)
    (hA : A.length < labels.length) :
    ∃ idx, idx < labels.length ∧ idx ∉ s.consumedIndices ∧
      getNextLabelFromArray nd labels s =
        (labels.getD idx "", consumeAt nd labels s idx) := by
  have hn : 0 < labels.length := by omega
  have hinit : initQueueIfNeeded labels s = s := by
    unfold initQueueIfNeeded
    rw [if_neg (by rw [hinv.2.2.1]; omega)]
  obtain ⟨idx, hm, hunc, heq⟩ := scanNext_found nd labels
    (labels.length - s.consumedIndices.length) (scanIdxs labels s) s
    (fun idx hm hu => usable_of_inv hinv (scanIdxs_lt hn hm) hu)
    (exists_accept hnodup hinv hA)
  refine ⟨idx, scanIdxs_lt hn hm, hunc, ?_⟩
  unfold getNextLabelFromArray
  rw [if_neg (by omega)]
  simp only [hinit, heq]

theorem selectTwo_step (nd : List String) {labels : List String} {s : SchedState}
    {A : List String} (hinv : SchedInv labels s A)
    (hA : A.length < labels.length) :
    selectTwoWordIdx nd labels s = (none, s) ∨
      ∃ idx, idx < labels.length ∧ idx ∉ s.consumedIndices ∧
        selectTwoWordIdx nd labels s = (some idx, consumeAt nd labels s idx) := by
  have hn : 0 < labels.length := by omega
  have hinit : initQueueIfNeeded labels s = s := by
    unfold initQueueIfNeeded
    rw [if_neg (by rw [hinv.2.2.1]; omega)]
  unfold selectTwoWordIdx
  by_cases h0 : (labels.filter fun l => includesSpace l).length = 0
  · rw [if_pos h0]
    exact Or.inl rfl
  · rw [if_neg h0]
    simp only [hinit]
    rcases scanTwo_cases nd labels (countUnconsumedMW nd labels s) (scanIdxs labels s) s
      (fun idx hm hu => usable_of_inv hinv (scanIdxs_lt hn hm) hu) with
      hnone | ⟨idx, hm, hu, heq⟩
    · exact Or.inl hnone
    · exact Or.inr ⟨idx, scanIdxs_lt hn hm, hu, heq⟩


theorem runScheduler_take (nd labels : List String) (hnodup : labels.Nodup) :
    ∀ (reqs : List LabelReq) (s : SchedState) (A : List String),
      SchedInv labels s A → A.Nodup → (∀ l ∈ A, l ∈ labels) →
      A.length ≤ labels.length →
      ((A ++ runScheduler nd labels s reqs).take labels.length).Nodup ∧
        ∀ lab ∈ (A ++ runScheduler nd labels s reqs).take labels.length, lab ∈ labels := by
  intro reqs
  induction reqs with
  | nil =>
    intro s A hinv hAn hAm hAl
    simp only [runScheduler, List.append_nil]
    rw [List.take_of_length_le hAl]
    exact ⟨hAn, hAm⟩
  | cons r rs ih =>
    intro s A hinv hAn hAm hAl
    rcases eq_or_lt_of_le hAl with hAeq | hAlt
    · have htake : (A ++ runScheduler nd labels s (r :: rs)).take labels.length = A := by
        have h2 := List.take_left A (runScheduler nd labels s (r :: rs))
        rw [hAeq] at h2
        exact h2
      rw [htake]
      exact ⟨hAn, hAm⟩
    · have hstep : ∀ (idx : Nat), idx < labels.length → idx ∉ s.consumedIndices →
          ∀ rest : List String,
            rest = runScheduler nd labels (consumeAt nd labels s idx) rs →
            ((A ++ (labels.getD idx "" :: rest)).take labels.length).Nodup ∧
              ∀ lab ∈ (A ++ (labels.getD idx "" :: rest)).take labels.length,
                lab ∈ labels := by
        intro idx hidx hunc rest hrest
        have hnotin : labels.getD idx "" ∉ A := fun hmem =>
          hunc ((hinv.1 idx).mpr ⟨hidx, hmem⟩)
        have hassoc : A ++ (labels.getD idx "" :: rest) =
            (A ++ [labels.getD idx ""]) ++ rest := by simp
        rw [hassoc, hrest]
        apply ih
        · exact consumeAt_inv hnodup hinv hidx hunc
        · rw [List.nodup_append]
          refine ⟨hAn, List.nodup_singleton _, ?_⟩
          intro a ha hb
          rw [List.mem_singleton] at hb
          subst hb
          exact hnotin ha
        · intro l hl
          rcases List.mem_append.mp hl with h | h
          · exact hAm l h
          · rw [List.mem_singleton] at h
            subst h
            exact getD_mem_of_lt hidx
        · rw [List.length_append, List.length_singleton]
          omega
      cases r with
      | one =>
        obtain ⟨idx, hidx, hunc, heq⟩ := getNext_step nd hnodup hinv hAlt
        have hrun : runScheduler nd labels s (LabelReq.one :: rs) =
            labels.getD idx "" :: runScheduler nd labels (consumeAt nd labels s idx) rs := by
          simp only [runScheduler, heq]
        rw [hrun]
        exact hstep idx hidx hunc _ rfl
      | two =>
        rcases selectTwo_step nd hinv hAlt with hnone | ⟨idx, hidx, hunc, heq⟩
        · have hrun : runScheduler nd labels s (LabelReq.two :: rs) =
              runScheduler nd labels s rs := by
            simp only [runScheduler, hnone]
          rw [hrun]
          exact ih s A hinv hAn hAm hAl
        · have hrun : runScheduler nd labels s (LabelReq.two :: rs) =
              labels.getD idx "" :: runScheduler nd labels (consumeAt nd labels s idx) rs := by
            simp only [runScheduler, heq]
          rw [hrun]
          exact hstep idx hidx hunc _ rfl

/-- Claim C2: for every label pool without duplicate entries and every
sequence of scheduler requests, no label is assigned a second time before
every label of the pool has been assigned at least once: the first
pool-size assignments of a run are pairwise distinct pool labels, and a
repeat can therefore only occur after a full cycle has consumed every
index and reset. -/
theorem C2_label_pool_fairness (nd labels : List String) (reqs : List LabelReq)
    (hnodup : labels.Nodup) :
    ((runScheduler nd labels initialSchedState reqs).take labels.length).Nodup ∧
      ∀ lab ∈ (runScheduler nd labels initialSchedState reqs).take labels.length,
        lab ∈ labels := by
  have hinv : SchedInv labels initialSchedState [] := by
    refine ⟨?_, ?_, ?_, ?_, ?_, ?_⟩ <;>
      simp [initialSchedState, LABEL_GAP]
  have h := runScheduler_take nd labels hnodup reqs initialSchedState [] hinv
    List.nodup_nil (by simp) (by simp)
  simpa using h

/-- Witness for C2: three single-label requests over the two-label pool
["a", "b"]; the first two assignments are distinct. -/
theorem C2_label_pool_fairness_witness :
    (["a", "b"] : List String).Nodup ∧
      (((runScheduler [] ["a", "b"] initialSchedState
            [LabelReq.one, LabelReq.one, LabelReq.one]).take
          (["a", "b"] : List String).length).Nodup ∧
        ∀ lab ∈ (runScheduler [] ["a", "b"] initialSchedState
            [LabelReq.one, LabelReq.one, LabelReq.one]).take
              (["a", "b"] : List String).length, lab ∈ (["a", "b"] : List String)) :=
  ⟨by decide, C2_label_pool_fairness [] ["a", "b"]
    [LabelReq.one, LabelReq.one, LabelReq.one] (by decide)⟩


/-- ShapeManager.SHAPE_GAP: minimum gap before the same shape group may
appear again. -/
def SHAPE_GAP : Nat := 3

/-- ShapeManager.getShapeGroup: s/z share the group "sz", l/j share "lj",
i/o/t are their own groups. -/
def getShapeGroup (shapeName : String) : String :=
  if shapeName = "s" ∨ shapeName = "z" then "sz"
  else if shapeName = "l" ∨ shapeName = "j" then "lj"
  else shapeName

/-- Modelled from the spec: shape_data.json is a public asset that is not
under src/, so the shape pool is taken from the spec: the 7 canonical
tetromino kinds, the two diagonal-pair shapes (s, z) carrying two label
anchors and every other shape one, each with its standard bounding-box
occupancy matrix. -/
def defaultShapes : List ShapeData :=
  [⟨"i", [(0, 0)], [[1, 1, 1, 1]], []⟩,
    ⟨"o", [(0, 0)], [[1, 1], [1, 1]], []⟩,
    ⟨"t", [(0, 0)], [[1, 1, 1], [0, 1, 0]], []⟩,
    ⟨"s", [(0, 0), (0, 0)], [[0, 1, 1], [1, 1, 0]], []⟩,
    ⟨"z", [(0, 0), (0, 0)], [[1, 1, 0], [0, 1, 1]], []⟩,
    ⟨"l", [(0, 0)], [[1, 0], [1, 0], [1, 1]], []⟩,
    ⟨"j", [(0, 0)], [[0, 1], [0, 1], [1, 1]], []⟩]

/-- Placeholder for the undefined result of indexing an empty array. -/
def dfltShape : ShapeData := ⟨"", [], [], []⟩

/-- ShapeManager.getRandomShape: apply the adapter-mode s/z filter, then
(when the recent-group history is non-empty and smaller than the filtered
pool) exclude the recent shape groups — this candidate computation is the
source's local availableShapes variable, hoisted into its own definition —
then pick the random index (modelled as k modulo the candidate count) and
record the chosen group into the SHAPE_GAP-deep history. -/
def availableShapes (gameplayType : String) (shapeData : List ShapeData)
    (recent : List String) : List ShapeData :=
  let available0 := if gameplayType = "adapter"
    then shapeData.filter (fun sh => decide (sh.shape_name ≠ "s" ∧ sh.shape_name ≠ "z"))
    else shapeData
  if 0 < recent.length ∧ recent.length < available0.length
  then available0.filter (fun sh => decide (getShapeGroup sh.shape_name ∉ recent))
  else available0

def getRandomShape (gameplayType : String) (shapeData : List ShapeData)
    (recent : List String) (k : Nat) : ShapeData × List String :=
  let available := availableShapes gameplayType shapeData recent
  let selected := available.getD (k % available.length) dfltShape
  (selected,
    if SHAPE_GAP < (recent ++ [getShapeGroup selected.shape_name]).length
    then (recent ++ [getShapeGroup selected.shape_name]).drop 1
    else recent ++ [getShapeGroup selected.shape_name])

/-- ShapeManager.hasValidTwoWordLabels: with every label consumed the
cycle is about to reset, so any multi-word pool label counts; otherwise
some unconsumed multi-word label must pass canUseLabel. -/
def hasValidTwoWordLabels (nd suggestedSkills : List String) (s : SchedState) : Bool :=
  let availableLabels := if 0 < suggestedSkills.length then suggestedSkills else []
  if availableLabels.length ≤ s.consumedIndices.length then
    availableLabels.any fun l => includesSpace l
  else
    (List.range availableLabels.length).any fun i =>
      decide (i ∉ s.consumedIndices) && includesSpace (availableLabels.getD i "") &&
        canUseLabel nd s.usedNoDuplicates (availableLabels.getD i "")

/-- The bounded re-roll loop of ShapeManager.generateRandomTetromino:
while the drawn shape is s or z and no valid two-word label is available,
redraw (each redraw records its group into the recent history). -/
def rerollShape (gameplayType : String) (shapes : List ShapeData)
    (nd suggested : List String) (sched : SchedState) :
    Nat → ShapeData × List String → List Nat → (ShapeData × List String) × List Nat
  | 0, cur, ks => (cur, ks)
  | fuel + 1, cur, ks =>
    if (cur.1.shape_name = "s" ∨ cur.1.shape_name = "z") ∧
        hasValidTwoWordLabels nd suggested sched = false then
      rerollShape gameplayType shapes nd suggested sched fuel
        (getRandomShape gameplayType shapes cur.2 (ks.headD 0)) ks.tail
    else (cur, ks)

/-- ShapeManager.getLabelsForShape: two-anchor shapes try the splittable
path with a two-single-label fallback; every other shape takes one label. -/
def getLabelsForShape (nd suggested : List String) (shape : ShapeData)
    (s : SchedState) : List String × SchedState :=
  let availableLabels := if 0 < suggested.length then suggested else shape.label
  if availableLabels.length = 0 then (["Label"], s)
  else if shape.text_position.length = 2 then
    match getTwoWordLabelFromArray nd availableLabels s with
    | (some (h1, h2), s1) => ([h1, h2], s1)
    | (none, s1) =>
      ([(getNextLabelFromArray nd availableLabels s1).1,
          (getNextLabelFromArray nd availableLabels
            (getNextLabelFromArray nd availableLabels s1).2).1],
        (getNextLabelFromArray nd availableLabels
          (getNextLabelFromArray nd availableLabels s1).2).2)
  else
    ([(getNextLabelFromArray nd availableLabels s).1],
      (getNextLabelFromArray nd availableLabels s).2)

/-- ShapeManager.rotateMatrix: 90 degrees clockwise. -/
def rotateMatrix (m : OccMat) : OccMat :=
  (List.range (rowLen m 0)).map fun col =>
    (List.range m.length).map fun i => entry m (m.length - 1 - i) col

/-- The rotation-application loop of generateRandomTetromino: rotate the
matrix once per 90 degrees of the chosen rotation. -/
def iterateRotate (m : OccMat) : Nat → OccMat
  | 0 => m
  | n + 1 => iterateRotate (rotateMatrix m) n

/-- ShapeManager.generateRandomTetromino: draw a shape (re-rolling s/z
when no two-word label is available), assign labels, pick a uniformly
random rotation (always 0 for the square), rotate the matrix and center
the piece horizontally on the 8-wide grid. Randomness is an explicit
stream of naturals consumed one draw at a time. -/
def generateRandomTetromino (gameplayType : String) (shapes : List ShapeData)
    (nd suggested : List String) (st : SchedState × List String) (ks : List Nat) :
    Tetromino × (SchedState × List String) × List Nat :=
  let draw := rerollShape gameplayType shapes nd suggested st.1 10
    (getRandomShape gameplayType shapes st.2 (ks.headD 0)) ks.tail
  let labs := getLabelsForShape nd suggested draw.1.1 st.1
  let finalRotation := if draw.1.1.shape_name = "o" then 0
    else [0, 90, 180, 270].getD (draw.2.headD 0 % 4) 0
  let matrix := iterateRotate draw.1.1.matrix (finalRotation / 90)
  (⟨draw.1.1, Int.fdiv (8 - (rowLen matrix 0 : Int)) 2, 0, finalRotation, matrix, labs.1⟩,
    (labs.2, draw.1.2), draw.2.tail)

/-- The similarity classes of a run of generated pieces (normal
generation path only). -/
def runPieceClasses (gameplayType : String) (shapes : List ShapeData)
    (nd suggested : List String) : SchedState × List String → List Nat → Nat → List String
  | _, _, 0 => []
  | st, ks, n + 1 =>
    let r := generateRandomTetromino gameplayType shapes nd suggested st ks
    getShapeGroup r.1.shape.shape_name :: runPieceClasses gameplayType shapes nd suggested r.2.1 r.2.2 n

/-- The similarity classes of consecutive getRandomShape selections. -/
def runShapes (gameplayType : String) (shapes : List ShapeData) :
    List String → List Nat → List String
  | _, [] => []
  | recent, k :: krest =>
    getShapeGroup (getRandomShape gameplayType shapes recent k).1.shape_name ::
      runShapes gameplayType shapes (getRandomShape gameplayType shapes recent k).2 krest

/-- TetrisScene.switchCurrentBlock: try up to 20 random shape+rotation
draws, keep the first one placeable at the current position, and reuse the
current piece labels verbatim; when every draw fails the piece is left
unchanged. -/
def switchCurrentBlock (W H : Nat) (g : Grid) (cur : Tetromino)
    (draws : List Tetromino) : Tetromino :=
  match (draws.take 20).find? (fun d => canPlace W H g
      ⟨d.shape, cur.x, cur.y, d.rotation, d.matrix, cur.labels⟩) with
  | some d => ⟨d.shape, cur.x, cur.y, d.rotation, d.matrix, cur.labels⟩
  | none => cur

/-- Claim C9 (amended): the exchange operation preserves the falling
piece's labels list verbatim — no splitting, rejoining or any other
adaptation happens, even when the replacement shape's anchor count
differs from the label count. -/
theorem C9_switch_preserves_labels (W H : Nat) (g : Grid) (cur : Tetromino)
    (draws : List Tetromino) :
    (switchCurrentBlock W H g cur draws).labels = cur.labels := by
  unfold switchCurrentBlock
  cases h : (draws.take 20).find? (fun d => canPlace W H g
      ⟨d.shape, cur.x, cur.y, d.rotation, d.matrix, cur.labels⟩) <;> rfl

/-- A one-anchor falling piece holding the single label "ab cd". -/
def c9Cur : Tetromino := ⟨⟨"i", [(0, 0)], [[1, 1, 1, 1]], []⟩, 0, 0, 0, [[1, 1, 1, 1]], ["ab cd"]⟩

/-- A two-anchor s-shape replacement draw. -/
def c9Draw : Tetromino :=
  ⟨⟨"s", [(0, 0), (0, 0)], [[0, 1, 1], [1, 1, 0]], []⟩, 0, 0, 0, [[0, 1, 1], [1, 1, 0]], ["x", "y"]⟩

/-- Counterexample to claim C9 as stated: exchanging a one-label piece for
a two-anchor shape does not split the label into two — the result keeps
the single original label, so the labels list no longer matches the anchor
count. -/
theorem C9_switch_preserves_labels_cex :
    (switchCurrentBlock 8 9 (initializeGrid 8 9) c9Cur [c9Draw]).shape.text_position.length = 2 ∧
      (switchCurrentBlock 8 9 (initializeGrid 8 9) c9Cur [c9Draw]).labels = ["ab cd"] ∧
      (switchCurrentBlock 8 9 (initializeGrid 8 9) c9Cur [c9Draw]).labels.length ≠
        (switchCurrentBlock 8 9 (initializeGrid 8 9) c9Cur [c9Draw]).shape.text_position.length := by
  refine ⟨by decide, by decide, by decide⟩


theorem getD_mem {α : Type} {l : List α} (d : α) {i : Nat} (h : i < l.length) :
    l.getD i d ∈ l := by
  rw [List.getD_eq_getElem?_getD, List.getElem?_eq_getElem h]
  exact List.getElem_mem h

/-- With a short recent history the candidate filter of getRandomShape is
active over the modelled pool. -/
theorem availableShapes_default (gameplayType : String) (recent : List String)
    (hne : recent ≠ []) (hlen : recent.length ≤ SHAPE_GAP) :
    availableShapes gameplayType defaultShapes recent =
      (if gameplayType = "adapter"
        then defaultShapes.filter (fun sh => decide (sh.shape_name ≠ "s" ∧ sh.shape_name ≠ "z"))
        else defaultShapes).filter
        (fun sh => decide (getShapeGroup sh.shape_name ∉ recent)) := by
  have hpos : 0 < recent.length := List.length_pos.mpr hne
  by_cases ha : gameplayType = "adapter"
  · unfold availableShapes
    dsimp only
    rw [if_pos ha]
    rw [if_pos ⟨hpos, lt_of_le_of_lt hlen (by decide)⟩]
  · unfold availableShapes
    dsimp only
    rw [if_neg ha]
    rw [if_pos ⟨hpos, lt_of_le_of_lt hlen (by decide)⟩]

/-- When the recent history is non-empty, at most SHAPE_GAP
long, the candidate list is non-empty: not every group of the
pool can be recent. -/
theorem availableShapes_ne_nil (gameplayType : String) (recent : List String)
    (hne : recent ≠ []) (hlen : recent.length ≤ SHAPE_GAP) :
    availableShapes gameplayType defaultShapes recent ≠ [] := by
  rw [availableShapes_default gameplayType recent hne hlen]
  intro hempty
  rw [List.filter_eq_nil_iff] at hempty
  have hempty2 : ∀ sh ∈ (if gameplayType = "adapter"
      then defaultShapes.filter (fun sh => decide (sh.shape_name ≠ "s" ∧ sh.shape_name ≠ "z"))
      else defaultShapes), getShapeGroup sh.shape_name ∈ recent := by
    intro sh hsh
    have := hempty sh hsh
    simpa using this
  have hmem4 : ∀ sh ∈ ([⟨"i", [(0, 0)], [[1, 1, 1, 1]], []⟩,
      ⟨"o", [(0, 0)], [[1, 1], [1, 1]], []⟩,
      ⟨"t", [(0, 0)], [[1, 1, 1], [0, 1, 0]], []⟩,
      ⟨"l", [(0, 0)], [[1, 0], [1, 0], [1, 1]], []⟩] : List ShapeData),
      sh ∈ (if gameplayType = "adapter"
        then defaultShapes.filter (fun sh => decide (sh.shape_name ≠ "s" ∧ sh.shape_name ≠ "z"))
        else defaultShapes) := by
    by_cases ha : gameplayType = "adapter"
    · rw [if_pos ha]; decide
    · rw [if_neg ha]; decide
  have hi : "i" ∈ recent :=
    hempty2 ⟨"i", [(0, 0)], [[1, 1, 1, 1]], []⟩ (hmem4 _ (by decide))
  have ho : "o" ∈ recent :=
    hempty2 ⟨"o", [(0, 0)], [[1, 1], [1, 1]], []⟩ (hmem4 _ (by decide))
  have ht : "t" ∈ recent :=
    hempty2 ⟨"t", [(0, 0)], [[1, 1, 1], [0, 1, 0]], []⟩ (hmem4 _ (by decide))
  have hl : "lj" ∈ recent :=
    hempty2 ⟨"l", [(0, 0)], [[1, 0], [1, 0], [1, 1]], []⟩ (hmem4 _ (by decide))
  have hsub : (["i", "o", "t", "lj"] : List String) ⊆ recent := by
    intro g hg
    simp only [List.mem_cons, List.not_mem_nil, or_false] at hg
    rcases hg with rfl | rfl | rfl | rfl
    exacts [hi, ho, ht, hl]
  have h4 : (["i", "o", "t", "lj"] : List String).length ≤ recent.length :=
    nodup_subset_length (by decide) hsub
  have h3 : recent.length ≤ 3 := hlen
  simp at h4
  omega

/-- The freshness step: with a non-empty recent history of at most
SHAPE_GAP groups, getRandomShape never selects a shape whose group is in
the history. -/
theorem getRandomShape_fresh (gameplayType : String) (recent : List String) (k : Nat)
    (hne : recent ≠ []) (hlen : recent.length ≤ SHAPE_GAP) :
    getShapeGroup (getRandomShape gameplayType defaultShapes recent k).1.shape_name ∉ recent := by
  have hnonempty := availableShapes_ne_nil gameplayType recent hne hlen
  have hpos : 0 < (availableShapes gameplayType defaultShapes recent).length :=
    List.length_pos.mpr hnonempty
  have hsel : (getRandomShape gameplayType defaultShapes recent k).1 =
      (availableShapes gameplayType defaultShapes recent).getD
        (k % (availableShapes gameplayType defaultShapes recent).length) dfltShape := rfl
  have hmem : (getRandomShape gameplayType defaultShapes recent k).1 ∈
      availableShapes gameplayType defaultShapes recent := by
    rw [hsel]
    exact getD_mem _ (Nat.mod_lt _ hpos)
  rw [availableShapes_default gameplayType recent hne hlen] at hmem
  have := List.of_mem_filter hmem
  simpa using this

/-- No similarity class repeats within any window of SHAPE_GAP + 1
consecutive entries of a class trace. -/
def windowOK (l : List String) : Prop :=
  ∀ i j, i < j → j < l.length → j ≤ i + SHAPE_GAP → l.getD i "" ≠ l.getD j ""

/-- Appending the new group to the history and trimming to SHAPE_GAP is
exactly keeping the last SHAPE_GAP entries of the extended trace. -/
theorem trim_drop (h : List String) (g : String) :
    (if SHAPE_GAP < (h.drop (h.length - SHAPE_GAP) ++ [g]).length
      then (h.drop (h.length - SHAPE_GAP) ++ [g]).drop 1
      else h.drop (h.length - SHAPE_GAP) ++ [g]) =
      (h ++ [g]).drop ((h ++ [g]).length - SHAPE_GAP) := by
  have hgap : SHAPE_GAP = 3 := rfl
  have happ : h.drop (h.length - SHAPE_GAP) ++ [g] = (h ++ [g]).drop (h.length - SHAPE_GAP) := by
    rw [List.drop_append_eq_append_drop]
    have : h.length - SHAPE_GAP - h.length = 0 := by omega
    rw [this]
    rfl
  have hlen2 : (h ++ [g]).length = h.length + 1 := by simp
  by_cases h3 : SHAPE_GAP ≤ h.length
  · have hcond : SHAPE_GAP < (h.drop (h.length - SHAPE_GAP) ++ [g]).length := by
      simp only [List.length_append, List.length_drop, List.length_singleton]
      omega
    rw [if_pos hcond, happ, List.drop_drop, hlen2]
    have : h.length - SHAPE_GAP + 1 = h.length + 1 - SHAPE_GAP := by omega
    rw [this]
  · have hcond : ¬ SHAPE_GAP < (h.drop (h.length - SHAPE_GAP) ++ [g]).length := by
      simp only [List.length_append, List.length_drop, List.length_singleton]
      omega
    rw [if_neg hcond, happ, hlen2]
    have h0 : h.length - SHAPE_GAP = 0 := by omega
    have h0b : h.length + 1 - SHAPE_GAP = 0 := by omega
    rw [h0, h0b]

/-- Invariant run of getRandomShape draws: starting from any class trace
whose last SHAPE_GAP entries form the recent history, the extended trace
still has no class repeat within any window of SHAPE_GAP + 1 entries. -/
theorem runShapes_window (gameplayType : String) (ks : List Nat) :
    ∀ hist : List String, windowOK hist →
      windowOK (hist ++ runShapes gameplayType defaultShapes
        (hist.drop (hist.length - SHAPE_GAP)) ks) := by
  induction ks with
  | nil =>
    intro hist hw
    simpa [runShapes] using hw
  | cons k ks ih =>
    intro hist hw
    have hgap : SHAPE_GAP = 3 := rfl
    set recent := hist.drop (hist.length - SHAPE_GAP) with hrec
    set g := getShapeGroup (getRandomShape gameplayType defaultShapes recent k).1.shape_name with hg
    have hstep : runShapes gameplayType defaultShapes recent (k :: ks) =
        g :: runShapes gameplayType defaultShapes
          (getRandomShape gameplayType defaultShapes recent k).2 ks := rfl
    have hw' : windowOK (hist ++ [g]) := by
      intro i j hij hj hwin
      rw [List.length_append, List.length_singleton] at hj
      rcases Nat.lt_or_ge j hist.length with hjl | hjl
      · rw [List.getD_append _ _ _ _ (by omega), List.getD_append _ _ _ _ hjl]
        exact hw i j hij hjl hwin
      · have hjeq : j = hist.length := by omega
        subst hjeq
        have hi_lt : i < hist.length := hij
        have hR : (hist ++ [g]).getD hist.length "" = g := by
          rw [List.getD_eq_getElem?_getD, List.getElem?_append_right (le_refl _)]
          simp
        have hL : (hist ++ [g]).getD i "" = hist.getD i "" :=
          List.getD_append _ _ _ _ hi_lt
        rw [hL, hR]
        have hne2 : recent ≠ [] := by
          rw [hrec]
          intro hcon
          have hlc := congrArg List.length hcon
          simp only [List.length_drop, List.length_nil] at hlc
          omega
        have hlen3 : recent.length ≤ SHAPE_GAP := by
          rw [hrec]
          simp only [List.length_drop]
          omega
        have hfresh : g ∉ recent := by
          rw [hg]
          exact getRandomShape_fresh gameplayType recent k hne2 hlen3
        have hmem : hist.getD i "" ∈ recent := by
          rw [hrec]
          have hidx : i - (hist.length - SHAPE_GAP) <
              (hist.drop (hist.length - SHAPE_GAP)).length := by
            simp only [List.length_drop]
            omega
          have heq : hist.getD i "" =
              (hist.drop (hist.length - SHAPE_GAP)).getD
                (i - (hist.length - SHAPE_GAP)) "" := by
            rw [List.getD_eq_getElem?_getD, List.getD_eq_getElem?_getD, List.getElem?_drop]
            have harith : hist.length - SHAPE_GAP + (i - (hist.length - SHAPE_GAP)) = i := by
              omega
            rw [harith]
          rw [heq]
          exact getD_mem _ hidx
        exact fun hcon => hfresh (hcon ▸ hmem)
    have hrec1 : (getRandomShape gameplayType defaultShapes recent k).2 =
        (hist ++ [g]).drop ((hist ++ [g]).length - SHAPE_GAP) := by
      have hsnd : (getRandomShape gameplayType defaultShapes recent k).2 =
          if SHAPE_GAP < (recent ++ [g]).length then (recent ++ [g]).drop 1
          else recent ++ [g] := rfl
      rw [hsnd, hrec]
      exact trim_drop hist g
    rw [hstep, List.append_cons, hrec1]
    exact ih (hist ++ [g]) hw'

/-- Claim C3 (amended): over the similarity-class trace of successive
getRandomShape draws — the shape-selection routine, whose recent-group
history records every draw — no class repeats within any window of
SHAPE_GAP + 1 = 4 consecutive draws, in every gameplay mode and for every
random stream over the modelled shape pool. At the generated-piece level
the property fails, because the silent s/z re-rolls of
generateRandomTetromino also push their classes into the history and evict
classes of actually generated pieces early. -/
theorem C3_shape_gap (gameplayType : String) (ks : List Nat) (i j : Nat)
    (hij : i < j) (hj : j < (runShapes gameplayType defaultShapes [] ks).length)
    (hwin : j ≤ i + SHAPE_GAP) :
    (runShapes gameplayType defaultShapes [] ks).getD i "" ≠
      (runShapes gameplayType defaultShapes [] ks).getD j "" := by
  have hw0 : windowOK ([] : List String) := by
    intro a b hab hb hwn
    exact absurd hb (by simp)
  have h := runShapes_window gameplayType ks [] hw0
  simp only [List.nil_append, List.length_nil, Nat.zero_sub, List.drop_nil] at h
  exact h i j hij hj hwin

/-- Witness: the first two draws of a run always differ in class. -/
theorem C3_shape_gap_witness :
    0 < 1 ∧ 1 < (runShapes "" defaultShapes [] [0, 0]).length ∧ 1 ≤ 0 + SHAPE_GAP ∧
      (runShapes "" defaultShapes [] [0, 0]).getD 0 "" ≠
        (runShapes "" defaultShapes [] [0, 0]).getD 1 "" :=
  ⟨by decide, by decide, by decide,
    C3_shape_gap "" [0, 0] 0 1 (by decide) (by decide) (by decide)⟩

/-- Counterexample to claim C3 as stated (generated-piece level): with the
single-word label pool and the shown random stream, the first draw of
piece 1 hits an s-shape, the re-roll (no two-word label is available)
records both the s/z class and the i class, and the run of four generated
pieces has classes i, o, t, i — the class i repeats among 4 consecutive
generated pieces. -/
theorem C3_shape_gap_cex :
    runPieceClasses "" defaultShapes [] ["alpha", "beta", "gamma", "delta", "epsilon"]
        (initialSchedState, []) [3, 0, 0, 0, 0, 0, 0, 0, 0, 0] 4 = ["i", "o", "t", "i"] ∧
      ¬ ∀ i j : Nat, i < j →
          j < (runPieceClasses "" defaultShapes [] ["alpha", "beta", "gamma", "delta", "epsilon"]
            (initialSchedState, []) [3, 0, 0, 0, 0, 0, 0, 0, 0, 0] 4).length →
          j ≤ i + SHAPE_GAP →
          (runPieceClasses "" defaultShapes [] ["alpha", "beta", "gamma", "delta", "epsilon"]
              (initialSchedState, []) [3, 0, 0, 0, 0, 0, 0, 0, 0, 0] 4).getD i "" ≠
            (runPieceClasses "" defaultShapes [] ["alpha", "beta", "gamma", "delta", "epsilon"]
              (initialSchedState, []) [3, 0, 0, 0, 0, 0, 0, 0, 0, 0] 4).getD j "" :=
  ⟨by decide, fun hall => absurd (hall 0 3 (by decide) (by decide) (by decide)) (by decide)⟩
end Wsg
